import Mathlib

/-!
The version bump of semver-bump-action, `cmd/semver-bump-action/main.go`.

A shallow embedding of `bumpSemver` and of the three functions it dispatches to
(`bumpStandardVersion`, `bumpPreReleaseVersion`, `incrementPrereleaseVersion`).

`main.go` does its parsing and printing through the module
`github.com/Masterminds/semver/v3` and through the Go standard library
(`strings`, `strconv`, `fmt`).  Neither is part of the repository, so the
functions that `main.go` calls are embedded here as well, one definition per
function, after `version.go` of the module in its v3.2 release line.  That is the
behaviour the table of `TestBumpSemver` in `main_test.go` records: a zero-padded
`major.minor.patch` is read numerically (`1.05.0`), a zero-padded numeric
pre-release identifier is refused (`1.0.0-alpha.01`), and `IncPatch` keeps the
patch number of a pre-release (`1.2.3-rc.3` gives `1.2.3`).

Conventions of the embedding:
* a Go string is the list of its characters (`Str`); the functions used here
  agree on bytes and on characters for well-formed UTF-8 text;
* `uint64` is a `Nat`, reduced modulo `2^64` where the code adds;
* `int` is the 64-bit `int` of the platforms the action is built for, an `Int`
  that wraps around at `2^63`;
* a Go `(value, error)` pair is an `Except`, or an `Option` where the error
  carries nothing the caller looks at.
-/

namespace SemverBump

/-- A Go string, as its sequence of characters. -/
abbrev Str := List Char

deriving instance DecidableEq for Except

/-! ## Go standard library -/

/-- Digits of the decimal alphabet, the constant `num` of the semver module. -/
def num : Str := "0123456789".toList

/-- Letters, hyphen and digits: the constant `allowed` of the semver module. -/
def allowed : Str :=
  "abcdefghijklmnopqrstuvwxyzABCDEFGHIJKLMNOPQRSTUVWXYZ-".toList ++ num

/-- The regular-expression class `[0-9]`. -/
def isNum (c : Char) : Bool := num.contains c

/-- The regular-expression class `[0-9A-Za-z\-]`. -/
def isAllowed (c : Char) : Bool := allowed.contains c

/-- The character of a decimal digit `d < 10`. -/
def digitChar (d : Nat) : Char := num.getD d '0'

/-- The value of a decimal digit character (`ch - '0'` in `strconv`). -/
def digitVal (c : Char) : Nat := c.toNat - 48

/-- Decimal rendering with explicit fuel: the digits of `n`, most significant first. -/
def formatUintAux : Nat → Nat → Str
  | 0, _ => []
  | fuel + 1, n =>
    if n < 10 then [digitChar n]
    else formatUintAux fuel (n / 10) ++ [digitChar (n % 10)]

/-- The verb `%d` of `fmt` on an unsigned integer. -/
def formatUint (n : Nat) : Str := formatUintAux (n + 1) n

/-- The verb `%d` of `fmt` on a signed integer. -/
def formatInt (i : Int) : Str :=
  if i < 0 then '-' :: formatUint i.natAbs else formatUint i.toNat

/-- The value of a string of decimal digits, read left to right. -/
def digitsValue (s : Str) : Nat := s.foldl (fun n c => 10 * n + digitVal c) 0

/-- The function `strconv.ParseUint(s, 10, 64)`: `none` is the returned error
(empty input, a character that is not a digit, or a value above `2^64 - 1`). -/
def parseUint (s : Str) : Option Nat :=
  if s = [] then none
  else if ¬ s.all isNum then none
  else if 2 ^ 64 ≤ digitsValue s then none
  else some (digitsValue s)

/-- The function `strconv.Atoi` for a 64-bit `int`: an optional sign, then
decimal digits, the value within `[-2^63, 2^63 - 1]`; `none` is the error. -/
def atoi (s : Str) : Option Int :=
  let neg : Bool := match s with
    | '-' :: _ => true
    | _ => false
  let body : Str := match s with
    | '-' :: t => t
    | '+' :: t => t
    | _ => s
  if body = [] then none
  else if ¬ body.all isNum then none
  else if neg then
    (if 2 ^ 63 < digitsValue body then none else some (-(digitsValue body : Int)))
  else
    (if 2 ^ 63 ≤ digitsValue body then none else some (digitsValue body : Int))

/-- The statement `number++` on a 64-bit `int`: the sum wraps around. -/
def incInt (i : Int) : Int := (i + 1 + 2 ^ 63) % 2 ^ 64 - 2 ^ 63

/-- The function `strings.HasPrefix(s, p)`. -/
def hasPrefix (s p : Str) : Bool := p.isPrefixOf s

/-- The function `strings.TrimPrefix(s, "v")`. -/
def trimPrefixV (s : Str) : Str :=
  match s with
  | 'v' :: t => t
  | _ => s

/-- The function `strings.TrimPrefix(s, ".")`. -/
def trimPrefixDot (s : Str) : Str :=
  match s with
  | '.' :: t => t
  | _ => s

/-- The function `strings.Split(s, ".")`: the pieces between the dots; never empty. -/
def splitDots : Str → List Str
  | [] => [[]]
  | c :: cs =>
    if c = '.' then [] :: splitDots cs
    else match splitDots cs with
      | [] => [[c]]
      | seg :: rest => (c :: seg) :: rest

/-- The function `strings.SplitN(s, ".", 2)`: `[s]` when `s` has no dot, else the
text before the first dot and the text after it. -/
def splitN2 : Str → List Str
  | [] => [[]]
  | c :: cs =>
    if c = '.' then [[], cs]
    else match splitN2 cs with
      | [a, b] => [c :: a, b]
      | _ => [c :: cs]

/-! ## The module `github.com/Masterminds/semver/v3`

The file `version.go` of the module: the regular expression `versionRegex`, the
parser `NewVersion` with its two validators, the printer `String` and the four
methods that `main.go` calls to change a version. -/

/-- Errors of the semver module. -/
inductive SemverError where
  | ErrInvalidSemVer
  | ErrSegmentParse
  | ErrSegmentStartsZero
  | ErrInvalidMetadata
  | ErrInvalidPrerelease
  deriving DecidableEq, Repr

/-- The struct `semver.Version`. -/
structure Version where
  major : Nat
  minor : Nat
  patch : Nat
  pre : Str
  metadata : Str
  original : Str
  deriving DecidableEq, Repr

/-- The submatches of `versionRegex` that `NewVersion` reads: `m[1]`, `m[2]`,
`m[3]`, `m[5]` and `m[8]`. -/
structure Submatch where
  m1 : Str
  m2 : Str
  m3 : Str
  m5 : Str
  m8 : Str
  deriving DecidableEq, Repr

/-- The pattern `[0-9]+` at the head of the input: the digits and the rest. -/
def matchDigits (s : Str) : Option (Str × Str) :=
  if s.takeWhile isNum = [] then none
  else some (s.takeWhile isNum, s.dropWhile isNum)

/-- The pattern `(\.[0-9]+)?` at the head of the input: the text of the group
(empty when the group does not take part) and the rest. -/
def matchDotDigits (s : Str) : Str × Str :=
  match s with
  | '.' :: t =>
    match matchDigits t with
    | some (ds, rest) => ('.' :: ds, rest)
    | none => ([], s)
  | _ => ([], s)

/-- The pattern `[0-9A-Za-z\-]+(\.[0-9A-Za-z\-]+)*` at the head of the input,
taken as far as it goes: the text and the rest. -/
def matchIdents (s : Str) : Option (Str × Str) :=
  if (splitDots (s.takeWhile (fun c => isAllowed c || c == '.'))).all (fun p => p ≠ [])
  then some (s.takeWhile (fun c => isAllowed c || c == '.'),
             s.dropWhile (fun c => isAllowed c || c == '.'))
  else none

/-- The tail `(\+([0-9A-Za-z\-]+(\.[0-9A-Za-z\-]+)*))?$` of `versionRegex`: the
build metadata `m[8]`. -/
def matchMetadata (s : Str) : Option Str :=
  match s with
  | [] => some []
  | '+' :: t =>
    match matchIdents t with
    | some (m8, []) => some m8
    | _ => none
  | _ => none

/-- The anchored regular expression `versionRegex`,
`^v?([0-9]+)(\.[0-9]+)?(\.[0-9]+)?(-(IDS))?(\+(IDS))?$` with `IDS` the pattern
of `matchIdents`, read from left to right; `none` when the text does not match. -/
def versionRegex (s : Str) : Option Submatch :=
  match matchDigits (trimPrefixV s) with
  | none => none
  | some (m1, r1) =>
    match matchDotDigits r1 with
    | (m2, r2) =>
      match matchDotDigits r2 with
      | (m3, r3) =>
        match r3 with
        | '-' :: t =>
          match matchIdents t with
          | none => none
          | some (m5, r4) =>
            match matchMetadata r4 with
            | none => none
            | some m8 => some ⟨m1, m2, m3, m5, m8⟩
        | _ =>
          match matchMetadata r3 with
          | none => none
          | some m8 => some ⟨m1, m2, m3, [], m8⟩

/-- The function `containsOnly(s, comp)`: every character of `s` is in `comp`. -/
def containsOnly (s comp : Str) : Bool := s.all (fun r => comp.contains r)

/-- The loop of `validatePrerelease` over the dot-separated identifiers: a part
made of digits must not begin with `0` unless it is one digit long, any other
part must be made of allowed characters. An empty part is made of digits only
in the sense of `containsOnly` and is let through, as in the v3.2 release line;
later releases of the module refuse it, and no statement below rests on what
becomes of an empty part. -/
def validatePrereleaseParts : List Str → Except SemverError Unit
  | [] => .ok ()
  | p :: ps =>
    if containsOnly p num then
      if p.length > 1 ∧ p.head? = some '0' then .error .ErrSegmentStartsZero
      else validatePrereleaseParts ps
    else if ¬ containsOnly p allowed then .error .ErrInvalidPrerelease
    else validatePrereleaseParts ps

/-- The function `validatePrerelease`. -/
def validatePrerelease (p : Str) : Except SemverError Unit :=
  validatePrereleaseParts (splitDots p)

/-- The loop of `validateMetadata` over the dot-separated identifiers. -/
def validateMetadataParts : List Str → Except SemverError Unit
  | [] => .ok ()
  | p :: ps =>
    if ¬ containsOnly p allowed then .error .ErrInvalidMetadata
    else validateMetadataParts ps

/-- The function `validateMetadata`. -/
def validateMetadata (m : Str) : Except SemverError Unit :=
  validateMetadataParts (splitDots m)

/-- The function `semver.NewVersion`. -/
def NewVersion (v : Str) : Except SemverError Version :=
  match versionRegex v with
  | none => .error .ErrInvalidSemVer
  | some m =>
    match parseUint m.m1 with
    | none => .error .ErrSegmentParse
    | some major =>
      match (if m.m2 ≠ [] then parseUint (trimPrefixDot m.m2) else some 0) with
      | none => .error .ErrSegmentParse
      | some minor =>
        match (if m.m3 ≠ [] then parseUint (trimPrefixDot m.m3) else some 0) with
        | none => .error .ErrSegmentParse
        | some patch =>
          match (if m.m5 ≠ [] then validatePrerelease m.m5 else .ok ()) with
          | .error e => .error e
          | .ok _ =>
            match (if m.m8 ≠ [] then validateMetadata m.m8 else .ok ()) with
            | .error e => .error e
            | .ok _ => .ok ⟨major, minor, patch, m.m5, m.m8, v⟩

/-- The method `Version.String`: `major.minor.patch`, then `-pre` and `+metadata`
when they are not empty. -/
def Version.String (v : Version) : Str :=
  formatUint v.major ++ '.' :: formatUint v.minor ++ '.' :: formatUint v.patch
    ++ (if v.pre ≠ [] then '-' :: v.pre else [])
    ++ (if v.metadata ≠ [] then '+' :: v.metadata else [])

/-- The method `Version.Prerelease`. -/
def Version.Prerelease (v : Version) : Str := v.pre

/-- The method `originalVPrefix`: `"v"` when the parsed text began with it. -/
def Version.originalVPrefix (v : Version) : Str :=
  if v.original ≠ [] ∧ v.original.take 1 = ['v'] then v.original.take 1 else []

/-- The method `IncPatch`: a version with a pre-release keeps its patch number
and loses the pre-release; any other version has its patch number incremented. -/
def Version.IncPatch (v : Version) : Version :=
  if v.pre ≠ [] then
    let vNext : Version := { v with metadata := [], pre := [] }
    { vNext with original := v.originalVPrefix ++ vNext.String }
  else
    let vNext : Version := { v with metadata := [], pre := [], patch := (v.patch + 1) % 2 ^ 64 }
    { vNext with original := v.originalVPrefix ++ vNext.String }

/-- The method `IncMinor`. -/
def Version.IncMinor (v : Version) : Version :=
  let vNext : Version :=
    { v with metadata := [], pre := [], patch := 0, minor := (v.minor + 1) % 2 ^ 64 }
  { vNext with original := v.originalVPrefix ++ vNext.String }

/-- The method `IncMajor`. -/
def Version.IncMajor (v : Version) : Version :=
  let vNext : Version :=
    { v with metadata := [], pre := [], patch := 0, minor := 0,
             major := (v.major + 1) % 2 ^ 64 }
  { vNext with original := v.originalVPrefix ++ vNext.String }

/-- The method `SetPrerelease`. -/
def Version.SetPrerelease (v : Version) (pre : Str) : Except SemverError Version :=
  match (if pre.length > 0 then validatePrerelease pre else .ok ()) with
  | .error e => .error e
  | .ok _ =>
    let vNext : Version := { v with pre := pre }
    .ok { vNext with original := v.originalVPrefix ++ vNext.String }

/-! ## `main.go` -/

/-- Errors that `bumpSemver` returns. -/
inductive BumpError where
  | invalidSemver (cause : SemverError)
  | unsupportedLevel
  | invalidStandardLevel
  | invalidPrereleaseLevel
  | invalidPrereleaseFormat
  | negativePrerelease
  | setPrerelease (cause : SemverError)
  deriving DecidableEq, Repr

/-- The function `bumpStandardVersion`. -/
def bumpStandardVersion (v : Version) (level : Str) : Except BumpError Version :=
  if level = "major".toList then .ok v.IncMajor
  else if level = "minor".toList then .ok v.IncMinor
  else if level = "patch".toList then .ok v.IncPatch
  else .error .invalidStandardLevel

/-- The function `incrementPrereleaseVersion`. -/
def incrementPrereleaseVersion (v : Version) (preReleaseTag : Str) :
    Except BumpError Version :=
  let prerelease := v.Prerelease
  let preReleaseTag := if preReleaseTag = [] then "alpha".toList else preReleaseTag
  let fresh : Except BumpError Version :=
    match v.SetPrerelease (preReleaseTag ++ ".0".toList) with
    | .error e => .error (.setPrerelease e)
    | .ok r => .ok r
  if hasPrefix prerelease preReleaseTag then
    match splitN2 prerelease with
    | [_, numberPart] =>
      match atoi numberPart with
      | none => .error .invalidPrereleaseFormat
      | some number =>
        if number < 0 then .error .negativePrerelease
        else
          match v.SetPrerelease (preReleaseTag ++ '.' :: formatInt (incInt number)) with
          | .error e => .error (.setPrerelease e)
          | .ok r => .ok r
    | _ => fresh
  else fresh

/-- The function `bumpPreReleaseVersion`. -/
def bumpPreReleaseVersion (v : Version) (level preReleaseTag : Str) :
    Except BumpError Version :=
  let attach (newVersion : Version) : Except BumpError Version :=
    let preReleaseTag := if preReleaseTag = [] then "alpha".toList else preReleaseTag
    match newVersion.SetPrerelease (preReleaseTag ++ ".0".toList) with
    | .error e => .error (.setPrerelease e)
    | .ok r => .ok r
  if level = "premajor".toList then attach v.IncMajor
  else if level = "preminor".toList then attach v.IncMinor
  else if level = "prepatch".toList then attach v.IncPatch
  else if level = "prerelease".toList then incrementPrereleaseVersion v preReleaseTag
  else .error .invalidPrereleaseLevel

/-- The function `bumpSemver`. -/
def bumpSemver (currentVersion bumpLevel preReleaseTag : Str) : Except BumpError Str :=
  let hasVPrefix := hasPrefix currentVersion ['v']
  let currentVersion := if hasVPrefix then trimPrefixV currentVersion else currentVersion
  match NewVersion currentVersion with
  | .error e => .error (.invalidSemver e)
  | .ok v =>
    let bumped : Except BumpError Version :=
      if bumpLevel = "major".toList ∨ bumpLevel = "minor".toList
          ∨ bumpLevel = "patch".toList then
        bumpStandardVersion v bumpLevel
      else if bumpLevel = "premajor".toList ∨ bumpLevel = "preminor".toList
          ∨ bumpLevel = "prepatch".toList ∨ bumpLevel = "prerelease".toList then
        bumpPreReleaseVersion v bumpLevel preReleaseTag
      else .error .unsupportedLevel
    match bumped with
    | .error e => .error e
    | .ok newVersion =>
      let result := newVersion.String
      .ok (if hasVPrefix then 'v' :: result else result)

/-! ## Vocabulary of the statements -/

/-- The text that `bumpSemver` hands to `NewVersion`: the input without its
leading `v`, when it has one. -/
def stripV (s : Str) : Str := if hasPrefix s ['v'] then trimPrefixV s else s

/-- The `v` that `bumpSemver` puts back in front of its result. -/
def vMark (s : Str) : Str := if hasPrefix s ['v'] then ['v'] else []

/-- The text `major.minor.patch` of three numbers. -/
def coreString (major minor patch : Nat) : Str :=
  formatUint major ++ '.' :: formatUint minor ++ '.' :: formatUint patch

/-- The tag in effect: the supplied tag, or `alpha` when none is supplied. -/
def effectiveTag (tag : Str) : Str := if tag = [] then "alpha".toList else tag

/-- A valid pre-release identifier: not empty, made of the characters
`0-9 A-Z a-z -`, and not a number written with a leading zero. -/
def validIdent (t : Str) : Bool :=
  t ≠ [] && t.all isAllowed
    && !(t.all isNum && decide (t.length > 1) && t.head? == some '0')

/-- The text that `Version.String` puts after `major.minor.patch`. -/
def suffixString (pre metadata : Str) : Str :=
  (if pre ≠ [] then '-' :: pre else []) ++ (if metadata ≠ [] then '+' :: metadata else [])

/-- A character that is neither `-` nor `+`, the two characters that end the
core of a version string. -/
def notSep (c : Char) : Bool := c != '-' && c != '+'

/-- The core of a version string: the text before the first `-` or `+`, after
the leading `v` that `bumpSemver` removes. -/
def coreOf (s : Str) : Str := (stripV s).takeWhile notSep

/-- The text is made of dot-separated components, each of them a non-empty run
of digits. -/
def numericComponents (core : Str) : Bool :=
  (splitDots core).all (fun p => p ≠ [] && p.all isNum)

/-- One dot-separated part of a pre-release that `validatePrerelease` lets
through: characters `0-9 A-Z a-z -` only, and not a number written with a
leading zero. -/
def partOK (p : Str) : Bool :=
  p.all isAllowed && !(p.all isNum && decide (p.length > 1) && p.head? == some '0')

/-- A tag whose dot-separated parts are all let through by `validatePrerelease`. -/
def validTag (t : Str) : Bool := (splitDots t).all partOK

/-- The end of `versionRegex`, after `major.minor.patch`: the pre-release `m[5]`
and the build metadata `m[8]` of a remainder that matches. -/
def versionTail (r3 : Str) : Option (Str × Str) :=
  match r3 with
  | '-' :: t =>
    match matchIdents t with
    | none => none
    | some (m5, r4) =>
      match matchMetadata r4 with
      | none => none
      | some m8 => some (m5, m8)
  | _ =>
    match matchMetadata r3 with
    | none => none
    | some m8 => some ([], m8)

/-- The pre-release of a version string, read off the text: what stands
between the `-` that ends the core and the first `+` after it. -/
def prereleaseOf (s : Str) : Str :=
  match (stripV s).dropWhile notSep with
  | '-' :: t => t.takeWhile (fun c => c != '+')
  | _ => []

/-- The pre-release at the head of a remainder: what stands between its leading
`-` and the first `+`. -/
def tailPrerelease (r3 : Str) : Str :=
  match r3 with
  | '-' :: t => t.takeWhile (fun c => c != '+')
  | _ => []

/-- An identifier made of digits only and written with a leading zero. -/
def zeroPadded (p : Str) : Bool :=
  p.all isNum && decide (p.length > 1) && p.head? == some '0'

/-- The body of `NewVersion` once `versionRegex` has matched: the three numbers
are parsed, then the pre-release and the build metadata are validated. -/
def versionOfMatch (m : Submatch) (v : Str) : Except SemverError Version :=
  match parseUint m.m1 with
  | none => .error .ErrSegmentParse
  | some major =>
    match (if m.m2 ≠ [] then parseUint (trimPrefixDot m.m2) else some 0) with
    | none => .error .ErrSegmentParse
    | some minor =>
      match (if m.m3 ≠ [] then parseUint (trimPrefixDot m.m3) else some 0) with
      | none => .error .ErrSegmentParse
      | some patch =>
        match (if m.m5 ≠ [] then validatePrerelease m.m5 else .ok ()) with
        | .error e => .error e
        | .ok _ =>
          match (if m.m8 ≠ [] then validateMetadata m.m8 else .ok ()) with
          | .error e => .error e
          | .ok _ => .ok ⟨major, minor, patch, m.m5, m.m8, v⟩

/-- A numeric component in canonical form: a non-empty run of digits without a
leading zero. -/
def canonicalNumber (d : Str) : Bool := d ≠ [] && d.all isNum && !zeroPadded d

/-- A valid pre-release section: dot-separated identifiers, none empty, made of
the characters `0-9 A-Z a-z -`, the numeric ones without a leading zero. -/
def validPrerelease (pre : Str) : Bool :=
  (splitDots pre).all (fun p => p ≠ [] && partOK p)

/-- A valid build metadata section: dot-separated identifiers, none empty, made
of the characters `0-9 A-Z a-z -`. -/
def validBuild (metadata : Str) : Bool :=
  (splitDots metadata).all (fun p => p ≠ [] && p.all isAllowed)

/-- Two texts compared character by character, in the order of the character
codes; a text precedes the texts it is a proper beginning of. -/
def compareText : Str → Str → Ordering
  | [], [] => .eq
  | [], _ :: _ => .lt
  | _ :: _, [] => .gt
  | a :: as, b :: bs =>
    if a < b then .lt else if b < a then .gt else compareText as bs

/-- Two pre-release identifiers compared as semantic versioning orders them:
two numbers numerically, a number before a text, two texts by `compareText`. -/
def compareIdent (a b : Str) : Ordering :=
  if a.all isNum ∧ b.all isNum then compare (digitsValue a) (digitsValue b)
  else if a.all isNum then .lt
  else if b.all isNum then .gt
  else compareText a b

/-- Two pre-releases compared identifier by identifier, from the left; when one
runs out first it precedes the other. -/
def comparePrerelease : List Str → List Str → Ordering
  | [], [] => .eq
  | [], _ :: _ => .lt
  | _ :: _, [] => .gt
  | a :: as, b :: bs =>
    match compareIdent a b with
    | .eq => comparePrerelease as bs
    | o => o

/-- The precedence of semantic versioning: major, minor and patch compared
numerically from the left; on an equal triple a version with a pre-release
precedes the one without, and two pre-releases are compared by
`comparePrerelease`. Build metadata does not take part. -/
def precedence (v w : Version) : Ordering :=
  if v.major ≠ w.major then compare v.major w.major
  else if v.minor ≠ w.minor then compare v.minor w.minor
  else if v.patch ≠ w.patch then compare v.patch w.patch
  else if v.pre = [] ∧ w.pre = [] then .eq
  else if v.pre = [] then .gt
  else if w.pre = [] then .lt
  else comparePrerelease (splitDots v.pre) (splitDots w.pre)

/-- The text of a bumped version, or the error of the bump. -/
def resultText (r : Except BumpError Version) : Except BumpError Str :=
  match r with
  | .error e => .error e
  | .ok newVersion => .ok newVersion.String

/-- The dispatch of `bumpSemver` on the bump level, after parsing. -/
def dispatch (v : Version) (bumpLevel preReleaseTag : Str) : Except BumpError Version :=
  if bumpLevel = "major".toList ∨ bumpLevel = "minor".toList
      ∨ bumpLevel = "patch".toList then
    bumpStandardVersion v bumpLevel
  else if bumpLevel = "premajor".toList ∨ bumpLevel = "preminor".toList
      ∨ bumpLevel = "prepatch".toList ∨ bumpLevel = "prerelease".toList then
    bumpPreReleaseVersion v bumpLevel preReleaseTag
  else .error .unsupportedLevel

/-! ## Unfolding `bumpSemver` -/

theorem vMark_append_eq (s r : Str) :
    (if hasPrefix s ['v'] = true then 'v' :: r else r) = vMark s ++ r := by
  unfold vMark
  split <;> simp

theorem bumpSemver_of_parse_error (s lvl tag : Str) (e : SemverError)
    (h : NewVersion (stripV s) = .error e) :
    bumpSemver s lvl tag = .error (.invalidSemver e) := by
  unfold stripV at h
  simp only [bumpSemver, h]

theorem bumpSemver_of_parse_ok (s lvl tag : Str) (v : Version)
    (h : NewVersion (stripV s) = .ok v) :
    bumpSemver s lvl tag =
      match dispatch v lvl tag with
      | .error e => .error e
      | .ok newVersion => .ok (vMark s ++ newVersion.String) := by
  unfold stripV at h
  simp only [bumpSemver, h, dispatch, vMark_append_eq]

theorem formatUint_zero : formatUint 0 = ['0'] := by decide

theorem lt_pow64_pred_mod (n : Nat) (h : n < 2 ^ 64 - 1) :
    (n + 1) % 18446744073709551616 = n + 1 :=
  Nat.mod_eq_of_lt (by omega)

/-! ## The standard bumps -/

/-- Claim C1: on an accepted version string whose major and minor are below
`2^64 - 1`, level `major` returns `(major+1).0.0` and level `minor` returns
`major.(minor+1).0`, whatever the tag, without pre-release or build metadata
(with the leading `v` of the input put back). -/
theorem bumpSemver_major_minor (s tag : Str) (v : Version)
    (hs : NewVersion (stripV s) = .ok v)
    (hmajor : v.major < 2 ^ 64 - 1) (hminor : v.minor < 2 ^ 64 - 1) :
    bumpSemver s "major".toList tag = .ok (vMark s ++ coreString (v.major + 1) 0 0)
    ∧ bumpSemver s "minor".toList tag
        = .ok (vMark s ++ coreString v.major (v.minor + 1) 0) := by
  constructor
  · rw [bumpSemver_of_parse_ok s _ tag v hs]
    simp [dispatch, bumpStandardVersion, Version.IncMajor, Version.String, coreString,
      lt_pow64_pred_mod _ hmajor]
  · rw [bumpSemver_of_parse_ok s _ tag v hs]
    simp [dispatch, bumpStandardVersion, Version.IncMinor, Version.String, coreString,
      lt_pow64_pred_mod _ hminor]

theorem bumpSemver_major_minor_witness :
    bumpSemver "1.0.0-alpha.1".toList "major".toList [] = .ok "2.0.0".toList
    ∧ bumpSemver "1.0.0-alpha.1".toList "minor".toList [] = .ok "1.1.0".toList :=
  bumpSemver_major_minor "1.0.0-alpha.1".toList []
    ⟨1, 0, 0, "alpha.1".toList, [], "1.0.0-alpha.1".toList⟩ (by decide) (by decide) (by decide)

/-- Claim C2, refuted as stated: `1.2.3-rc.3` is accepted with patch number 3,
and level `patch` returns `1.2.3`, not `1.2.4`. -/
theorem bumpSemver_patch_not_unconditional :
    NewVersion (stripV "1.2.3-rc.3".toList)
        = .ok ⟨1, 2, 3, "rc.3".toList, [], "1.2.3-rc.3".toList⟩
    ∧ bumpSemver "1.2.3-rc.3".toList "patch".toList [] = .ok "1.2.3".toList
    ∧ bumpSemver "1.2.3-rc.3".toList "patch".toList []
        ≠ .ok (vMark "1.2.3-rc.3".toList ++ coreString 1 2 (3 + 1)) := by
  decide

/-- Claim C2, amended: on an accepted version string without a pre-release whose
patch number is below `2^64 - 1`, level `patch` returns `major.minor.(patch+1)`
with the build metadata cleared, whatever the tag. -/
theorem bumpSemver_patch_release (s tag : Str) (v : Version)
    (hs : NewVersion (stripV s) = .ok v) (hpre : v.pre = [])
    (hpatch : v.patch < 2 ^ 64 - 1) :
    bumpSemver s "patch".toList tag
      = .ok (vMark s ++ coreString v.major v.minor (v.patch + 1)) := by
  rw [bumpSemver_of_parse_ok s _ tag v hs]
  simp [dispatch, bumpStandardVersion, Version.IncPatch, Version.String, coreString,
    lt_pow64_pred_mod _ hpatch, hpre]

theorem bumpSemver_patch_release_witness :
    bumpSemver "v1.2.3+b7".toList "patch".toList [] = .ok "v1.2.4".toList :=
  bumpSemver_patch_release "v1.2.3+b7".toList []
    ⟨1, 2, 3, [], "b7".toList, "1.2.3+b7".toList⟩ (by decide) (by decide) (by decide)

/-- Claim C3: on an accepted version string with a pre-release, level `patch`
returns the same `major.minor.patch`, the patch number not incremented, with the
pre-release and the build metadata removed. -/
theorem bumpSemver_patch_prerelease (s tag : Str) (v : Version)
    (hs : NewVersion (stripV s) = .ok v) (hpre : v.pre ≠ []) :
    bumpSemver s "patch".toList tag
      = .ok (vMark s ++ coreString v.major v.minor v.patch) := by
  rw [bumpSemver_of_parse_ok s _ tag v hs]
  simp [dispatch, bumpStandardVersion, Version.IncPatch, Version.String, coreString, hpre]

theorem bumpSemver_patch_prerelease_witness :
    bumpSemver "1.2.3-rc.3".toList "patch".toList [] = .ok "1.2.3".toList :=
  bumpSemver_patch_prerelease "1.2.3-rc.3".toList []
    ⟨1, 2, 3, "rc.3".toList, [], "1.2.3-rc.3".toList⟩ (by decide) (by decide)


/-! ## Decimal rendering -/

theorem isNum_digitChar (d : Nat) (h : d < 10) : isNum (digitChar d) = true := by
  interval_cases d <;> decide

theorem digitVal_digitChar (d : Nat) (h : d < 10) : digitVal (digitChar d) = d := by
  interval_cases d <;> decide

theorem digitChar_ne_zero (d : Nat) (h0 : 0 < d) (h : d < 10) : digitChar d ≠ '0' := by
  interval_cases d <;> decide

theorem isNum_ne_dot (c : Char) (h : isNum c = true) : c ≠ '.' := by
  rintro rfl; revert h; decide

theorem isNum_ne_v (c : Char) (h : isNum c = true) : c ≠ 'v' := by
  rintro rfl; revert h; decide

theorem isNum_ne_minus (c : Char) (h : isNum c = true) : c ≠ '-' := by
  rintro rfl; revert h; decide

theorem isNum_ne_plus (c : Char) (h : isNum c = true) : c ≠ '+' := by
  rintro rfl; revert h; decide

theorem isAllowed_of_isNum (c : Char) (h : isNum c = true) : isAllowed c = true := by
  simp only [isNum, isAllowed, allowed, List.contains_eq_any_beq, List.any_append] at *
  simp [h]

theorem isAllowed_ne_dot (c : Char) (h : isAllowed c = true) : c ≠ '.' := by
  rintro rfl; revert h; decide

theorem digitsValue_append_single (l : Str) (c : Char) :
    digitsValue (l ++ [c]) = 10 * digitsValue l + digitVal c := by
  simp [digitsValue, List.foldl_append]

theorem formatUintAux_all (fuel n : Nat) (h : n < fuel) :
    (formatUintAux fuel n).all isNum = true := by
  induction fuel generalizing n with
  | zero => omega
  | succ fuel ih =>
    unfold formatUintAux
    split
    · simp [isNum_digitChar n (by omega)]
    · rw [List.all_append, ih (n / 10) (by omega)]
      simp [isNum_digitChar (n % 10) (Nat.mod_lt _ (by decide))]

theorem formatUintAux_value (fuel n : Nat) (h : n < fuel) :
    digitsValue (formatUintAux fuel n) = n := by
  induction fuel generalizing n with
  | zero => omega
  | succ fuel ih =>
    unfold formatUintAux
    split
    · simp [digitsValue, digitVal_digitChar n (by omega)]
    · rw [digitsValue_append_single, ih (n / 10) (by omega),
        digitVal_digitChar (n % 10) (Nat.mod_lt _ (by decide))]
      omega

theorem formatUintAux_head (fuel n : Nat) (h : n < fuel) (hn : 0 < n) :
    ∃ k rest, 0 < k ∧ k < 10 ∧ formatUintAux fuel n = digitChar k :: rest := by
  induction fuel generalizing n with
  | zero => omega
  | succ fuel ih =>
    unfold formatUintAux
    split
    · exact ⟨n, [], hn, by omega, rfl⟩
    · obtain ⟨k, rest, hk0, hk, he⟩ := ih (n / 10) (by omega) (by omega)
      exact ⟨k, rest ++ [digitChar (n % 10)], hk0, hk, by rw [he]; rfl⟩

theorem formatUint_all (n : Nat) : (formatUint n).all isNum = true :=
  formatUintAux_all (n + 1) n (by omega)

theorem formatUint_value (n : Nat) : digitsValue (formatUint n) = n :=
  formatUintAux_value (n + 1) n (by omega)

theorem formatUint_cons (n : Nat) :
    ∃ c rest, formatUint n = c :: rest ∧ isNum c = true
      ∧ (c = '0' → rest = []) := by
  rcases Nat.eq_zero_or_pos n with h0 | hpos
  · subst h0
    exact ⟨'0', [], by decide, by decide, fun _ => rfl⟩
  · obtain ⟨k, rest, hk0, hk, he⟩ := formatUintAux_head (n + 1) n (by omega) hpos
    exact ⟨digitChar k, rest, he, isNum_digitChar k hk,
      fun h => absurd h (digitChar_ne_zero k hk0 hk)⟩

theorem formatUint_ne_nil (n : Nat) : formatUint n ≠ [] := by
  obtain ⟨c, rest, he, _⟩ := formatUint_cons n
  simp [he]

theorem not_mem_of_all_isNum (l : Str) (h : l.all isNum = true) : '.' ∉ l := by
  intro hm
  rw [List.all_eq_true] at h
  exact isNum_ne_dot _ (h _ hm) rfl


/-! ## Splitting at dots -/

theorem splitDots_append_dot (a b : Str) (h : '.' ∉ a) :
    splitDots (a ++ '.' :: b) = a :: splitDots b := by
  induction a with
  | nil => simp [splitDots]
  | cons c a ih =>
    have hc : c ≠ '.' := fun e => h (by simp [e])
    have ha : '.' ∉ a := fun e => h (by simp [e])
    simp [splitDots, hc, ih ha]

theorem splitDots_no_dot (a : Str) (h : '.' ∉ a) : splitDots a = [a] := by
  induction a with
  | nil => rfl
  | cons c a ih =>
    have hc : c ≠ '.' := fun e => h (by simp [e])
    have ha : '.' ∉ a := fun e => h (by simp [e])
    simp [splitDots, hc, ih ha]

theorem splitN2_append_dot (a b : Str) (h : '.' ∉ a) :
    splitN2 (a ++ '.' :: b) = [a, b] := by
  induction a with
  | nil => simp [splitN2]
  | cons c a ih =>
    have hc : c ≠ '.' := fun e => h (by simp [e])
    have ha : '.' ∉ a := fun e => h (by simp [e])
    simp [splitN2, hc, ih ha]

theorem splitN2_no_dot (a : Str) (h : '.' ∉ a) : splitN2 a = [a] := by
  induction a with
  | nil => rfl
  | cons c a ih =>
    have hc : c ≠ '.' := fun e => h (by simp [e])
    have ha : '.' ∉ a := fun e => h (by simp [e])
    simp [splitN2, hc, ih ha]

/-! ## `strconv.Atoi` on a rendered number -/

theorem atoi_formatUint (n : Nat) (h : n < 2 ^ 63) : atoi (formatUint n) = some (n : Int) := by
  obtain ⟨c, rest, he, hc, _⟩ := formatUint_cons n
  have hall := formatUint_all n
  have hval := formatUint_value n
  rw [he] at hall hval
  have h1 : c ≠ '-' := isNum_ne_minus c hc
  have h2 : c ≠ '+' := isNum_ne_plus c hc
  rw [he]
  unfold atoi
  split
  · rename_i heq; cases heq; exact absurd rfl h1
  · split
    · rename_i heq; cases heq; exact absurd rfl h1
    · rename_i heq; cases heq; exact absurd rfl h2
    · simp only [hall, hval]
      simp
      omega

theorem incInt_natCast (n : Nat) (h : n < 2 ^ 63 - 1) : incInt (n : Int) = ((n + 1 : Nat) : Int) := by
  unfold incInt
  norm_num at h ⊢
  omega

theorem formatInt_natCast (n : Nat) : formatInt (n : Int) = formatUint n := by
  unfold formatInt
  rw [if_neg (by omega)]
  simp

/-! ## Validation of a pre-release -/

theorem validIdent_iff (t : Str) :
    validIdent t = true ↔
      t ≠ [] ∧ t.all isAllowed = true
        ∧ ¬ (t.all isNum = true ∧ t.length > 1 ∧ t.head? = some '0') := by
  unfold validIdent
  by_cases h1 : t = [] <;> by_cases h2 : t.all isAllowed = true
    <;> by_cases h3 : t.all isNum = true <;> by_cases h4 : t.length > 1
    <;> by_cases h5 : t.head? = some '0' <;> simp [h1, h2, h3, h4, h5]

theorem not_mem_dot_of_all_isAllowed (t : Str) (h : t.all isAllowed = true) : '.' ∉ t := by
  intro hm
  rw [List.all_eq_true] at h
  exact isAllowed_ne_dot _ (h _ hm) rfl

theorem validatePrereleaseParts_cons (p : Str) (ps : List Str)
    (hall : p.all isAllowed = true)
    (hz : ¬ (p.all isNum = true ∧ p.length > 1 ∧ p.head? = some '0')) :
    validatePrereleaseParts (p :: ps) = validatePrereleaseParts ps := by
  have e1 : containsOnly p num = p.all isNum := rfl
  have e2 : containsOnly p allowed = p.all isAllowed := rfl
  rw [validatePrereleaseParts, e1, e2, hall]
  by_cases hn : p.all isNum = true
  · rw [if_pos hn, if_neg (fun hh => hz ⟨hn, hh.1, hh.2⟩)]
  · rw [if_neg hn]
    simp

theorem all_isAllowed_of_all_isNum (l : Str) (h : l.all isNum = true) :
    l.all isAllowed = true := by
  rw [List.all_eq_true] at h ⊢
  exact fun c hc => isAllowed_of_isNum c (h c hc)

theorem validatePrereleaseParts_formatUint (n : Nat) :
    validatePrereleaseParts [formatUint n] = .ok () := by
  rw [validatePrereleaseParts_cons _ _ (all_isAllowed_of_all_isNum _ (formatUint_all n))]
  · rfl
  · obtain ⟨c, rest, he, _, hz⟩ := formatUint_cons n
    rw [he]
    rintro ⟨_, hlen, hhead⟩
    simp at hhead
    simp [hz hhead] at hlen

/-- A valid identifier followed by a dot and a rendered number passes `validatePrerelease`. -/
theorem validatePrerelease_tag_number (t : Str) (n : Nat) (ht : validIdent t = true) :
    validatePrerelease (t ++ '.' :: formatUint n) = .ok () := by
  obtain ⟨_, hall, hz⟩ := (validIdent_iff t).1 ht
  unfold validatePrerelease
  rw [splitDots_append_dot _ _ (not_mem_dot_of_all_isAllowed t hall),
    splitDots_no_dot _ (not_mem_of_all_isNum _ (formatUint_all n)),
    validatePrereleaseParts_cons _ _ hall hz]
  exact validatePrereleaseParts_formatUint n

theorem validIdent_alpha : validIdent "alpha".toList = true := by decide

theorem validIdent_effectiveTag (tag : Str) (h : tag = [] ∨ validIdent tag = true) :
    validIdent (effectiveTag tag) = true := by
  unfold effectiveTag
  split
  · exact validIdent_alpha
  · rcases h with h | h
    · contradiction
    · exact h

theorem effectiveTag_ne_nil (tag : Str) : effectiveTag tag ≠ [] := by
  unfold effectiveTag
  split
  · decide
  · assumption

/-! ## `SetPrerelease` and `String` -/

theorem Version.String_eq (v : Version) :
    v.String = coreString v.major v.minor v.patch ++ suffixString v.pre v.metadata := by
  simp [Version.String, coreString, suffixString]

theorem SetPrerelease_of_valid (v : Version) (p : Str) (hp : validatePrerelease p = .ok ()) :
    ∃ r, v.SetPrerelease p = .ok r ∧ r.major = v.major ∧ r.minor = v.minor
      ∧ r.patch = v.patch ∧ r.pre = p ∧ r.metadata = v.metadata := by
  unfold Version.SetPrerelease
  by_cases hl : p.length > 0
  · rw [if_pos hl, hp]
    exact ⟨_, rfl, rfl, rfl, rfl, rfl, rfl⟩
  · rw [if_neg hl]
    exact ⟨_, rfl, rfl, rfl, rfl, rfl, rfl⟩


/-! ## The dispatch, level by level -/

theorem dispatch_major (v : Version) (tag : Str) :
    dispatch v "major".toList tag = .ok v.IncMajor := by
  unfold dispatch bumpStandardVersion
  rw [if_pos (by decide), if_pos rfl]

theorem dispatch_minor (v : Version) (tag : Str) :
    dispatch v "minor".toList tag = .ok v.IncMinor := by
  unfold dispatch bumpStandardVersion
  rw [if_pos (by decide), if_neg (by decide), if_pos rfl]

theorem dispatch_patch (v : Version) (tag : Str) :
    dispatch v "patch".toList tag = .ok v.IncPatch := by
  unfold dispatch bumpStandardVersion
  rw [if_pos (by decide), if_neg (by decide), if_neg (by decide), if_pos rfl]

/-- The tail of `bumpPreReleaseVersion`: the fresh label `tag.0` on a bumped version. -/
theorem dispatch_premajor (v : Version) (tag : Str) :
    dispatch v "premajor".toList tag =
      match v.IncMajor.SetPrerelease (effectiveTag tag ++ ".0".toList) with
      | .error e => .error (.setPrerelease e)
      | .ok r => .ok r := by
  unfold dispatch bumpPreReleaseVersion
  rw [if_neg (by decide), if_pos (by decide), if_pos rfl]
  rfl

theorem dispatch_preminor (v : Version) (tag : Str) :
    dispatch v "preminor".toList tag =
      match v.IncMinor.SetPrerelease (effectiveTag tag ++ ".0".toList) with
      | .error e => .error (.setPrerelease e)
      | .ok r => .ok r := by
  unfold dispatch bumpPreReleaseVersion
  rw [if_neg (by decide), if_pos (by decide), if_neg (by decide), if_pos rfl]
  rfl

theorem dispatch_prepatch (v : Version) (tag : Str) :
    dispatch v "prepatch".toList tag =
      match v.IncPatch.SetPrerelease (effectiveTag tag ++ ".0".toList) with
      | .error e => .error (.setPrerelease e)
      | .ok r => .ok r := by
  unfold dispatch bumpPreReleaseVersion
  rw [if_neg (by decide), if_pos (by decide), if_neg (by decide), if_neg (by decide),
    if_pos rfl]
  rfl

theorem dispatch_prerelease (v : Version) (tag : Str) :
    dispatch v "prerelease".toList tag = incrementPrereleaseVersion v tag := by
  unfold dispatch bumpPreReleaseVersion
  rw [if_neg (by decide), if_pos (by decide), if_neg (by decide), if_neg (by decide),
    if_neg (by decide), if_pos rfl]

theorem dot_zero_eq : ".0".toList = '.' :: formatUint 0 := by decide

/-- The fresh label on a version without pre-release and metadata: the text of
the version, then `-tag.0`. -/
theorem SetPrerelease_fresh (w : Version) (tag : Str)
    (ht : tag = [] ∨ validIdent tag = true) :
    ∃ r, w.SetPrerelease (effectiveTag tag ++ ".0".toList) = .ok r
      ∧ r.String = coreString w.major w.minor w.patch
          ++ suffixString (effectiveTag tag ++ ".0".toList) w.metadata := by
  have hv : validatePrerelease (effectiveTag tag ++ ".0".toList) = .ok () := by
    rw [dot_zero_eq]
    exact validatePrerelease_tag_number _ 0 (validIdent_effectiveTag tag ht)
  obtain ⟨r, hr, h1, h2, h3, h4, h5⟩ := SetPrerelease_of_valid w _ hv
  exact ⟨r, hr, by rw [Version.String_eq, h1, h2, h3, h4, h5]⟩

theorem suffixString_fresh (t u : Str) :
    suffixString (t ++ u) [] = if t ++ u ≠ [] then '-' :: (t ++ u) else [] := by
  simp [suffixString]

/-! ## The pre-release levels -/

/-- Claim C4: on an accepted version string, for a level `L` among `major`,
`minor`, `patch` and a tag that is empty or a valid pre-release identifier, the
level `pre` + `L` succeeds and returns the result of level `L` followed by
`-tag.0`, the tag being `alpha` when none is supplied. -/
theorem bumpSemver_pre_level (s level tag : Str) (v : Version)
    (hs : NewVersion (stripV s) = .ok v)
    (hl : level = "major".toList ∨ level = "minor".toList ∨ level = "patch".toList)
    (ht : tag = [] ∨ validIdent tag = true) :
    ∃ r, bumpSemver s level [] = .ok r
      ∧ bumpSemver s ("pre".toList ++ level) tag
          = .ok (r ++ '-' :: effectiveTag tag ++ ".0".toList) := by
  have hne : effectiveTag tag ++ ".0".toList ≠ [] := by simp [effectiveTag_ne_nil]
  rcases hl with rfl | rfl | rfl
  · obtain ⟨r, hr, hstr⟩ := SetPrerelease_fresh v.IncMajor tag ht
    refine ⟨vMark s ++ v.IncMajor.String, ?_, ?_⟩
    · rw [bumpSemver_of_parse_ok s _ _ v hs, dispatch_major]
    · rw [show "pre".toList ++ "major".toList = "premajor".toList from rfl,
        bumpSemver_of_parse_ok s _ _ v hs, dispatch_premajor, hr]
      simp only [hstr, Version.String_eq]
      simp [Version.IncMajor, suffixString, hne]
  · obtain ⟨r, hr, hstr⟩ := SetPrerelease_fresh v.IncMinor tag ht
    refine ⟨vMark s ++ v.IncMinor.String, ?_, ?_⟩
    · rw [bumpSemver_of_parse_ok s _ _ v hs, dispatch_minor]
    · rw [show "pre".toList ++ "minor".toList = "preminor".toList from rfl,
        bumpSemver_of_parse_ok s _ _ v hs, dispatch_preminor, hr]
      simp only [hstr, Version.String_eq]
      simp [Version.IncMinor, suffixString, hne]
  · obtain ⟨r, hr, hstr⟩ := SetPrerelease_fresh v.IncPatch tag ht
    refine ⟨vMark s ++ v.IncPatch.String, ?_, ?_⟩
    · rw [bumpSemver_of_parse_ok s _ _ v hs, dispatch_patch]
    · rw [show "pre".toList ++ "patch".toList = "prepatch".toList from rfl,
        bumpSemver_of_parse_ok s _ _ v hs, dispatch_prepatch, hr]
      simp only [hstr, Version.String_eq]
      by_cases hp : v.pre = [] <;> simp [Version.IncPatch, suffixString, hne, hp]


theorem bumpSemver_pre_level_witness :
    ∃ r, bumpSemver "1.2.0".toList "minor".toList [] = .ok r
      ∧ bumpSemver "1.2.0".toList ("pre".toList ++ "minor".toList) "beta".toList
          = .ok (r ++ '-' :: effectiveTag "beta".toList ++ ".0".toList) :=
  bumpSemver_pre_level "1.2.0".toList "minor".toList "beta".toList
    ⟨1, 2, 0, [], [], "1.2.0".toList⟩ (by decide) (by decide) (by decide)

/-! ## The level `prerelease` -/

/-- The last line of `incrementPrereleaseVersion`, reached when the pre-release
does not begin with the tag or has no dot. -/
theorem incrementPrereleaseVersion_fresh (v : Version) (tag : Str)
    (h : hasPrefix v.pre (effectiveTag tag) = false ∨ '.' ∉ v.pre) :
    incrementPrereleaseVersion v tag =
      match v.SetPrerelease (effectiveTag tag ++ ".0".toList) with
      | .error e => .error (.setPrerelease e)
      | .ok r => .ok r := by
  unfold incrementPrereleaseVersion
  simp only [Version.Prerelease]
  rw [show (if tag = [] then "alpha".toList else tag) = effectiveTag tag from rfl]
  rcases h with h | h
  · rw [h]
    simp
  · rw [splitN2_no_dot _ h]
    split <;> rfl

/-- The branch of `incrementPrereleaseVersion` that reads the number after the
first dot of a pre-release that begins with the tag. -/
theorem incrementPrereleaseVersion_number (v : Version) (tag a b : Str)
    (hp : v.pre = a ++ '.' :: b) (ha : '.' ∉ a)
    (hbegin : hasPrefix v.pre (effectiveTag tag) = true) :
    incrementPrereleaseVersion v tag =
      match atoi b with
      | none => .error .invalidPrereleaseFormat
      | some number =>
        if number < 0 then .error .negativePrerelease
        else
          match v.SetPrerelease (effectiveTag tag ++ '.' :: formatInt (incInt number)) with
          | .error e => .error (.setPrerelease e)
          | .ok r => .ok r := by
  unfold incrementPrereleaseVersion
  simp only [Version.Prerelease]
  rw [show (if tag = [] then "alpha".toList else tag) = effectiveTag tag from rfl]
  rw [hbegin, hp, splitN2_append_dot _ _ ha]
  simp

theorem hasPrefix_append (x t rest : Str) (h : hasPrefix x t = true) :
    hasPrefix (x ++ rest) t = true := by
  unfold hasPrefix at *
  rw [List.isPrefixOf_iff_prefix] at *
  exact h.trans (List.prefix_append x rest)

theorem hasPrefix_nil (t : Str) (h : t ≠ []) : hasPrefix [] t = false := by
  cases t with
  | nil => contradiction
  | cons c t => rfl

/-- Claim C5: on an accepted version string whose pre-release is `x.n`, with `x`
free of dots and beginning with the tag in effect `t`, `t` a valid identifier
and `n < 2^63 - 1`, the level `prerelease` returns the same
`major.minor.patch` with the pre-release `t.(n+1)` (the build metadata is kept). -/
theorem bumpSemver_prerelease_increment (s tag x : Str) (n : Nat) (v : Version)
    (hs : NewVersion (stripV s) = .ok v)
    (hpre : v.pre = x ++ '.' :: formatUint n) (hx : '.' ∉ x)
    (hbegin : hasPrefix x (effectiveTag tag) = true)
    (ht : validIdent (effectiveTag tag) = true)
    (hn : n < 2 ^ 63 - 1) :
    bumpSemver s "prerelease".toList tag =
      .ok (vMark s ++ coreString v.major v.minor v.patch
        ++ suffixString (effectiveTag tag ++ '.' :: formatUint (n + 1)) v.metadata) := by
  have hb : hasPrefix v.pre (effectiveTag tag) = true := by
    rw [hpre]; exact hasPrefix_append _ _ _ hbegin
  obtain ⟨r, hr, h1, h2, h3, h4, h5⟩ := SetPrerelease_of_valid v _
    (validatePrerelease_tag_number (effectiveTag tag) (n + 1) ht)
  rw [bumpSemver_of_parse_ok s _ _ v hs, dispatch_prerelease,
    incrementPrereleaseVersion_number v tag x _ hpre hx hb,
    atoi_formatUint n (by omega)]
  simp only [incInt_natCast n hn, formatInt_natCast]
  rw [if_neg (by omega), hr]
  simp only [Version.String_eq, h1, h2, h3, h4, h5, List.append_assoc]

theorem bumpSemver_prerelease_increment_witness :
    bumpSemver "1.2.3-alpha.10+b7".toList "prerelease".toList "a".toList
      = .ok "1.2.3-a.11+b7".toList :=
  bumpSemver_prerelease_increment "1.2.3-alpha.10+b7".toList "a".toList "alpha".toList 10
    ⟨1, 2, 3, "alpha.10".toList, "b7".toList, "1.2.3-alpha.10+b7".toList⟩
    (by decide) (by decide) (by decide) (by decide) (by decide) (by decide)

/-- Claim C6: on an accepted version string, with a tag that is empty or a valid
identifier and `t` the tag in effect, when the pre-release is empty, or does not
begin with `t`, or begins with `t` and has no dot, the level `prerelease`
returns the same `major.minor.patch` with the pre-release `t.0`; nothing of the
old pre-release is left (the build metadata is kept). -/
theorem bumpSemver_prerelease_fresh (s tag : Str) (v : Version)
    (hs : NewVersion (stripV s) = .ok v)
    (ht : tag = [] ∨ validIdent tag = true)
    (hc : v.pre = [] ∨ hasPrefix v.pre (effectiveTag tag) = false
      ∨ (hasPrefix v.pre (effectiveTag tag) = true ∧ '.' ∉ v.pre)) :
    bumpSemver s "prerelease".toList tag =
      .ok (vMark s ++ coreString v.major v.minor v.patch
        ++ suffixString (effectiveTag tag ++ ".0".toList) v.metadata) := by
  have hc2 : hasPrefix v.pre (effectiveTag tag) = false ∨ '.' ∉ v.pre := by
    rcases hc with h | h | h
    · left; rw [h]; exact hasPrefix_nil _ (effectiveTag_ne_nil tag)
    · exact Or.inl h
    · exact Or.inr h.2
  obtain ⟨r, hr, hstr⟩ := SetPrerelease_fresh v tag ht
  rw [bumpSemver_of_parse_ok s _ _ v hs, dispatch_prerelease,
    incrementPrereleaseVersion_fresh v tag hc2, hr]
  simp only [hstr, List.append_assoc]

theorem bumpSemver_prerelease_fresh_witness :
    bumpSemver "1.2.3-beta.1".toList "prerelease".toList "rc".toList
      = .ok "1.2.3-rc.0".toList :=
  bumpSemver_prerelease_fresh "1.2.3-beta.1".toList "rc".toList
    ⟨1, 2, 3, "beta.1".toList, [], "1.2.3-beta.1".toList⟩
    (by decide) (by decide) (by decide)

/-- Claim C7, refuted as stated: the pre-release `alpha.-0` begins with the tag
`alpha`, the text after its first dot is `-0`, which begins with `-`, and the
level `prerelease` returns the version `1.2.3-alpha.1`. -/
theorem bumpSemver_prerelease_minus_zero :
    NewVersion (stripV "1.2.3-alpha.-0".toList)
        = .ok ⟨1, 2, 3, "alpha.-0".toList, [], "1.2.3-alpha.-0".toList⟩
    ∧ hasPrefix "alpha.-0".toList (effectiveTag "alpha".toList) = true
    ∧ splitN2 "alpha.-0".toList = ["alpha".toList, "-0".toList]
    ∧ bumpSemver "1.2.3-alpha.-0".toList "prerelease".toList "alpha".toList
        = .ok "1.2.3-alpha.1".toList := by
  decide

/-- Claim C7, amended: on an accepted version string whose pre-release begins
with the tag in effect and has a dot, when the text after the first dot is not
read by `strconv.Atoi` as an integer, or is read as a negative one, the level
`prerelease` fails: it returns an error and no version. -/
theorem bumpSemver_prerelease_bad_number (s tag a b : Str) (v : Version)
    (hs : NewVersion (stripV s) = .ok v)
    (hp : v.pre = a ++ '.' :: b) (ha : '.' ∉ a)
    (hbegin : hasPrefix v.pre (effectiveTag tag) = true)
    (hbad : atoi b = none ∨ ∃ k, atoi b = some k ∧ k < 0) :
    bumpSemver s "prerelease".toList tag = .error .invalidPrereleaseFormat
    ∨ bumpSemver s "prerelease".toList tag = .error .negativePrerelease := by
  rw [bumpSemver_of_parse_ok s _ _ v hs, dispatch_prerelease,
    incrementPrereleaseVersion_number v tag a b hp ha hbegin]
  rcases hbad with h | ⟨k, h, hk⟩
  · left; rw [h]
  · right; rw [h]; simp only [if_pos hk]

theorem bumpSemver_prerelease_bad_number_witness :
    bumpSemver "1.2.3-alpha.1.2".toList "prerelease".toList [] = .error .invalidPrereleaseFormat
    ∨ bumpSemver "1.2.3-alpha.1.2".toList "prerelease".toList [] = .error .negativePrerelease :=
  bumpSemver_prerelease_bad_number "1.2.3-alpha.1.2".toList [] "alpha".toList "1.2".toList
    ⟨1, 2, 3, "alpha.1.2".toList, [], "1.2.3-alpha.1.2".toList⟩
    (by decide) (by decide) (by decide) (by decide) (Or.inl (by decide))


/-! ## The leading `v` -/

theorem stripV_cons_v (s : Str) : stripV ('v' :: s) = s := by
  simp [stripV, hasPrefix, trimPrefixV]

theorem vMark_cons_v (s : Str) : vMark ('v' :: s) = ['v'] := by
  simp [vMark, hasPrefix]

theorem stripV_of_not_v (s : Str) (h : hasPrefix s ['v'] = false) : stripV s = s := by
  unfold stripV
  rw [h]
  rfl

theorem vMark_of_not_v (s : Str) (h : hasPrefix s ['v'] = false) : vMark s = [] := by
  unfold vMark
  rw [h]
  rfl

theorem bumpSemver_ok_inv (s lvl tag r : Str) (h : bumpSemver s lvl tag = .ok r) :
    ∃ v nv, NewVersion (stripV s) = .ok v ∧ dispatch v lvl tag = .ok nv
      ∧ r = vMark s ++ nv.String := by
  cases hv : NewVersion (stripV s) with
  | error e => rw [bumpSemver_of_parse_error s lvl tag e hv] at h; cases h
  | ok v =>
    rw [bumpSemver_of_parse_ok s lvl tag v hv] at h
    cases hd : dispatch v lvl tag with
    | error e => rw [hd] at h; cases h
    | ok nv =>
      rw [hd] at h
      injection h with h
      exact ⟨v, nv, rfl, hd, h.symm⟩

theorem Version.String_head (v : Version) :
    ∃ c rest, v.String = c :: rest ∧ isNum c = true := by
  obtain ⟨c, rest, he, hc, _⟩ := formatUint_cons v.major
  exact ⟨c, _, by rw [Version.String, he]; rfl, hc⟩

/-- Claim C8: for an input `s` that does not begin with `v`, `bumpSemver` fails on
`v` + `s` exactly when it fails on `s` (with the same error), and when it
succeeds on `s` with `r` it succeeds on `v` + `s` with `v` + `r`; and a
successful result of `bumpSemver` begins with `v` only when its input does. -/
theorem bumpSemver_v_mark (s lvl tag : Str) (hs : hasPrefix s ['v'] = false) :
    (∀ e, bumpSemver ('v' :: s) lvl tag = .error e ↔ bumpSemver s lvl tag = .error e)
    ∧ (∀ r, bumpSemver s lvl tag = .ok r → bumpSemver ('v' :: s) lvl tag = .ok ('v' :: r))
    ∧ (∀ cv r, bumpSemver cv lvl tag = .ok r →
        (hasPrefix r ['v'] = true ↔ hasPrefix cv ['v'] = true)) := by
  have key : bumpSemver ('v' :: s) lvl tag
      = match bumpSemver s lvl tag with
        | .error e => .error e
        | .ok r => .ok ('v' :: r) := by
    cases hv : NewVersion s with
    | error e =>
      rw [bumpSemver_of_parse_error ('v' :: s) lvl tag e (by rw [stripV_cons_v]; exact hv),
        bumpSemver_of_parse_error s lvl tag e (by rw [stripV_of_not_v s hs]; exact hv)]
    | ok v =>
      rw [bumpSemver_of_parse_ok ('v' :: s) lvl tag v (by rw [stripV_cons_v]; exact hv),
        bumpSemver_of_parse_ok s lvl tag v (by rw [stripV_of_not_v s hs]; exact hv),
        vMark_cons_v, vMark_of_not_v s hs]
      cases dispatch v lvl tag <;> rfl
  refine ⟨?_, ?_, ?_⟩
  · intro e
    rw [key]
    cases bumpSemver s lvl tag <;> simp
  · intro r hr
    rw [key, hr]
  · intro cv r hr
    obtain ⟨v, nv, _, _, rfl⟩ := bumpSemver_ok_inv cv lvl tag r hr
    obtain ⟨c, rest, he, hc⟩ := Version.String_head nv
    have hcv : c ≠ 'v' := isNum_ne_v c hc
    cases hp : hasPrefix cv ['v'] with
    | true => rw [vMark, hp]; simp [hasPrefix]
    | false =>
      rw [vMark_of_not_v cv hp, he]
      simp [hasPrefix, hcv.symm]

theorem bumpSemver_v_mark_witness :
    (∀ e, bumpSemver ('v' :: "1.2.3".toList) "patch".toList [] = .error e
        ↔ bumpSemver "1.2.3".toList "patch".toList [] = .error e)
    ∧ (∀ r, bumpSemver "1.2.3".toList "patch".toList [] = .ok r →
        bumpSemver ('v' :: "1.2.3".toList) "patch".toList [] = .ok ('v' :: r))
    ∧ (∀ cv r, bumpSemver cv "patch".toList [] = .ok r →
        (hasPrefix r ['v'] = true ↔ hasPrefix cv ['v'] = true)) :=
  bumpSemver_v_mark "1.2.3".toList "patch".toList [] (by decide)

/-! ## Rejected levels -/

/-- Claim C9: on an accepted version string, a level that is not exactly one of
`major`, `minor`, `patch`, `premajor`, `preminor`, `prepatch`, `prerelease`
makes `bumpSemver` fail with the error of an unsupported level, whatever the tag. -/
theorem bumpSemver_unsupported_level (s lvl tag : Str) (v : Version)
    (hs : NewVersion (stripV s) = .ok v)
    (hl : lvl ∉ ["major".toList, "minor".toList, "patch".toList, "premajor".toList,
      "preminor".toList, "prepatch".toList, "prerelease".toList]) :
    bumpSemver s lvl tag = .error .unsupportedLevel := by
  simp only [List.mem_cons, List.mem_singleton, List.not_mem_nil, not_or, or_false] at hl
  obtain ⟨h1, h2, h3, h4, h5, h6, h7⟩ := hl
  rw [bumpSemver_of_parse_ok s lvl tag v hs]
  unfold dispatch
  rw [if_neg (by rintro (h | h | h) <;> contradiction),
    if_neg (by rintro (h | h | h | h) <;> contradiction)]

theorem bumpSemver_unsupported_level_witness :
    bumpSemver "1.2.3".toList "Major".toList [] = .error .unsupportedLevel :=
  bumpSemver_unsupported_level "1.2.3".toList "Major".toList []
    ⟨1, 2, 3, [], [], "1.2.3".toList⟩ (by decide) (by decide)


/-! ## The shape of a text that `versionRegex` matches -/

theorem matchDigits_some (s ds r : Str) (h : matchDigits s = some (ds, r)) :
    s = ds ++ r ∧ ds ≠ [] ∧ ds.all isNum = true := by
  unfold matchDigits at h
  split at h
  · cases h
  · rename_i hne
    injection h with h
    injection h with h1 h2
    subst h1 h2
    refine ⟨(List.takeWhile_append_dropWhile isNum s).symm, hne, ?_⟩
    rw [List.all_eq_true]
    intro c hc
    exact List.mem_takeWhile_imp hc

theorem matchDotDigits_eq (s m r : Str) (h : matchDotDigits s = (m, r)) :
    s = m ++ r ∧ (m = [] ∨ ∃ d, m = '.' :: d ∧ d ≠ [] ∧ d.all isNum = true) := by
  unfold matchDotDigits at h
  split at h
  · rename_i t
    split at h
    · rename_i ds rest hm
      obtain ⟨h1, h2, h3⟩ := matchDigits_some t ds rest hm
      injection h with ha hb
      subst ha hb
      exact ⟨by rw [h1]; rfl, Or.inr ⟨ds, rfl, h2, h3⟩⟩
    · injection h with ha hb
      subst ha hb
      exact ⟨rfl, Or.inl rfl⟩
  · injection h with ha hb
    subst ha hb
    exact ⟨rfl, Or.inl rfl⟩

theorem matchMetadata_some (s m8 : Str) (h : matchMetadata s = some m8) :
    s = [] ∨ ∃ t, s = '+' :: t := by
  unfold matchMetadata at h
  split at h
  · exact Or.inl rfl
  · exact Or.inr ⟨_, rfl⟩
  · cases h

/-- A text matched by `versionRegex`: after the optional `v`, the digits of
`m[1]`, the groups `m[2]` and `m[3]` (each empty, or a dot and digits), and a
remainder that is empty or begins with `-` or `+`. -/
theorem versionRegex_some (t : Str) (m : Submatch) (h : versionRegex t = some m) :
    ∃ r3, trimPrefixV t = m.m1 ++ (m.m2 ++ (m.m3 ++ r3))
      ∧ (r3 = [] ∨ ∃ w, r3 = '-' :: w ∨ r3 = '+' :: w)
      ∧ m.m1 ≠ [] ∧ m.m1.all isNum = true
      ∧ (m.m2 = [] ∨ ∃ d, m.m2 = '.' :: d ∧ d ≠ [] ∧ d.all isNum = true)
      ∧ (m.m3 = [] ∨ ∃ d, m.m3 = '.' :: d ∧ d ≠ [] ∧ d.all isNum = true) := by
  unfold versionRegex at h
  split at h
  · cases h
  · rename_i m1 r1 hm1
    obtain ⟨e1, n1, a1⟩ := matchDigits_some _ _ _ hm1
    split at h
    rename_i m2 r2 hm2
    obtain ⟨e2, p2⟩ := matchDotDigits_eq _ _ _ hm2
    split at h
    rename_i m3 r3 hm3
    obtain ⟨e3, p3⟩ := matchDotDigits_eq _ _ _ hm3
    have hshape : trimPrefixV t = m1 ++ (m2 ++ (m3 ++ r3)) := by rw [e1, e2, e3]
    split at h
    · rename_i w
      split at h
      · cases h
      · split at h
        · cases h
        · injection h with h
          subst h
          exact ⟨_, hshape, Or.inr ⟨w, Or.inl rfl⟩, n1, a1, p2, p3⟩
    · split at h
      · cases h
      · rename_i m8 hm8
        injection h with h
        subst h
        refine ⟨_, hshape, ?_, n1, a1, p2, p3⟩
        rcases matchMetadata_some _ _ hm8 with h0 | ⟨w, hw⟩
        · exact Or.inl h0
        · exact Or.inr ⟨w, Or.inr hw⟩


theorem notSep_of_isNum (c : Char) (h : isNum c = true) : notSep c = true := by
  simp [notSep, isNum_ne_minus c h, isNum_ne_plus c h]

theorem notSep_of_mem_group (g : Str)
    (hg : g = [] ∨ ∃ d, g = '.' :: d ∧ d ≠ [] ∧ d.all isNum = true) :
    ∀ c ∈ g, notSep c = true := by
  intro c hc
  rcases hg with rfl | ⟨d, rfl, _, hd⟩
  · cases hc
  · rw [List.all_eq_true] at hd
    rcases List.mem_cons.1 hc with rfl | hc
    · decide
    · exact notSep_of_isNum c (hd c hc)

theorem takeWhile_notSep_rest (r3 : Str) (h : r3 = [] ∨ ∃ w, r3 = '-' :: w ∨ r3 = '+' :: w) :
    r3.takeWhile notSep = [] := by
  rcases h with rfl | ⟨w, rfl | rfl⟩
  · rfl
  · simp [List.takeWhile, notSep]
  · simp [List.takeWhile, notSep]

theorem trimPrefixV_takeWhile (u : Str) :
    trimPrefixV (u.takeWhile notSep) = (trimPrefixV u).takeWhile notSep := by
  cases u with
  | nil => rfl
  | cons c u =>
    by_cases hc : c = 'v'
    · subst hc
      simp [List.takeWhile, notSep, trimPrefixV]
    · have e1 : trimPrefixV (c :: u) = c :: u := by
        unfold trimPrefixV
        split
        · rename_i heq; cases heq; exact absurd rfl hc
        · rfl
      rw [e1]
      cases hn : notSep c with
      | true =>
        rw [List.takeWhile_cons_of_pos hn]
        unfold trimPrefixV
        split
        · rename_i heq; cases heq; exact absurd rfl hc
        · rfl
      | false =>
        rw [List.takeWhile_cons_of_neg (by simp [hn])]
        rfl

theorem numericComponents_groups (m1 m2 m3 : Str)
    (n1 : m1 ≠ []) (a1 : m1.all isNum = true)
    (p2 : m2 = [] ∨ ∃ d, m2 = '.' :: d ∧ d ≠ [] ∧ d.all isNum = true)
    (p3 : m3 = [] ∨ ∃ d, m3 = '.' :: d ∧ d ≠ [] ∧ d.all isNum = true) :
    numericComponents (m1 ++ (m2 ++ m3)) = true
      ∧ (splitDots (m1 ++ (m2 ++ m3))).length ≤ 3 := by
  have d1 := not_mem_of_all_isNum m1 a1
  unfold numericComponents
  rcases p2 with rfl | ⟨d2, rfl, n2, a2⟩ <;> rcases p3 with rfl | ⟨d3, rfl, n3, a3⟩
  · simp [splitDots_no_dot m1 d1, n1, a1]
  · have dd3 := not_mem_of_all_isNum d3 a3
    simp only [List.nil_append]
    rw [splitDots_append_dot m1 d3 d1, splitDots_no_dot d3 dd3]
    simp [n1, a1, n3, a3]
  · have dd2 := not_mem_of_all_isNum d2 a2
    simp only [List.append_nil]
    rw [splitDots_append_dot m1 d2 d1, splitDots_no_dot d2 dd2]
    simp [n1, a1, n2, a2]
  · have dd2 := not_mem_of_all_isNum d2 a2
    have dd3 := not_mem_of_all_isNum d3 a3
    rw [show m1 ++ ('.' :: d2 ++ '.' :: d3) = m1 ++ '.' :: (d2 ++ '.' :: d3) from rfl,
      splitDots_append_dot m1 _ d1, splitDots_append_dot d2 d3 dd2, splitDots_no_dot d3 dd3]
    simp [n1, a1, n2, a2, n3, a3]

/-- The core of a text that `versionRegex` matches. -/
theorem versionRegex_core (t : Str) (m : Submatch) (h : versionRegex t = some m) :
    numericComponents (trimPrefixV (t.takeWhile notSep)) = true
      ∧ (splitDots (trimPrefixV (t.takeWhile notSep))).length ≤ 3 := by
  obtain ⟨r3, hshape, hr3, n1, a1, p2, p3⟩ := versionRegex_some t m h
  have hcore : trimPrefixV (t.takeWhile notSep) = m.m1 ++ (m.m2 ++ m.m3) := by
    rw [trimPrefixV_takeWhile, hshape,
      List.takeWhile_append_of_pos
        (fun c hc => notSep_of_isNum c (List.all_eq_true.1 a1 c hc)),
      List.takeWhile_append_of_pos (notSep_of_mem_group _ p2),
      List.takeWhile_append_of_pos (notSep_of_mem_group _ p3),
      takeWhile_notSep_rest r3 hr3, List.append_nil]
  rw [hcore]
  exact numericComponents_groups _ _ _ n1 a1 p2 p3

theorem NewVersion_of_no_match (t : Str) (h : versionRegex t = none) :
    NewVersion t = .error .ErrInvalidSemVer := by
  unfold NewVersion
  rw [h]

/-! ## Rejected version strings -/

/-- Claim C10, refuted as stated: the core of `1.2` has two components, not
three, and `bumpSemver` accepts it: level `patch` returns `1.2.1`. -/
theorem bumpSemver_two_components :
    coreOf "1.2".toList = "1.2".toList
    ∧ splitDots (coreOf "1.2".toList) = ["1".toList, "2".toList]
    ∧ (splitDots (coreOf "1.2".toList)).length ≠ 3
    ∧ bumpSemver "1.2".toList "patch".toList [] = .ok "1.2.1".toList := by
  decide

/-- Claim C10, amended: whatever the level and the tag, `bumpSemver` fails on
every version string whose core, after the one further `v` that the parser
itself lets through, is not made of one, two or three dot-separated components
that are each a non-empty run of digits. -/
theorem bumpSemver_malformed_core (s lvl tag : Str)
    (h : ¬ (numericComponents (trimPrefixV (coreOf s)) = true
      ∧ (splitDots (trimPrefixV (coreOf s))).length ≤ 3)) :
    bumpSemver s lvl tag = .error (.invalidSemver .ErrInvalidSemVer) := by
  cases hm : versionRegex (stripV s) with
  | none => exact bumpSemver_of_parse_error s lvl tag _ (NewVersion_of_no_match _ hm)
  | some m => exact absurd (versionRegex_core _ m hm) h

theorem bumpSemver_malformed_core_witness :
    bumpSemver "1.x.3".toList "prerelease".toList "rc".toList
      = .error (.invalidSemver .ErrInvalidSemVer) :=
  bumpSemver_malformed_core "1.x.3".toList "prerelease".toList "rc".toList (by decide)

/-! ## What the level `prerelease` leaves alone -/

theorem SetPrerelease_ok_inv (v r : Version) (p : Str) (h : v.SetPrerelease p = .ok r) :
    r.major = v.major ∧ r.minor = v.minor ∧ r.patch = v.patch ∧ r.pre = p
      ∧ r.metadata = v.metadata ∧ (p = [] ∨ validatePrerelease p = .ok ()) := by
  unfold Version.SetPrerelease at h
  by_cases hl : p.length > 0
  · rw [if_pos hl] at h
    cases hv : validatePrerelease p with
    | error e => rw [hv] at h; cases h
    | ok u =>
      rw [hv] at h
      injection h with h
      subst h
      exact ⟨rfl, rfl, rfl, rfl, rfl, Or.inr rfl⟩
  · rw [if_neg hl] at h
    injection h with h
    subst h
    exact ⟨rfl, rfl, rfl, rfl, rfl, Or.inl (List.length_eq_zero.1 (by omega))⟩

theorem setPrerelease_wrap_ok (v nv : Version) (p : Str)
    (h : (match v.SetPrerelease p with
      | .error e => (.error (.setPrerelease e) : Except BumpError Version)
      | .ok r => .ok r) = .ok nv) :
    v.SetPrerelease p = .ok nv := by
  cases hv : v.SetPrerelease p with
  | error e => rw [hv] at h; cases h
  | ok r => rw [hv] at h; simpa using h

theorem split_first_dot (l : Str) (h : '.' ∈ l) :
    ∃ a b, l = a ++ '.' :: b ∧ '.' ∉ a := by
  induction l with
  | nil => cases h
  | cons c l ih =>
    by_cases hc : c = '.'
    · exact ⟨[], l, by rw [hc]; rfl, by simp⟩
    · have hl : '.' ∈ l := by
        rcases List.mem_cons.1 h with h | h
        · exact absurd h.symm hc
        · exact h
      obtain ⟨a, b, hab, ha⟩ := ih hl
      refine ⟨c :: a, b, by rw [hab]; rfl, ?_⟩
      intro hm
      rcases List.mem_cons.1 hm with h | h
      · exact hc h.symm
      · exact ha h

theorem incrementPrereleaseVersion_ok_inv (v nv : Version) (tag : Str)
    (h : incrementPrereleaseVersion v tag = .ok nv) :
    ∃ p, v.SetPrerelease p = .ok nv := by
  by_cases hb : hasPrefix v.pre (effectiveTag tag) = true
  · by_cases hd : '.' ∈ v.pre
    · obtain ⟨a, b, hab, ha⟩ := split_first_dot v.pre hd
      rw [incrementPrereleaseVersion_number v tag a b hab ha hb] at h
      cases hat : atoi b with
      | none => rw [hat] at h; cases h
      | some k =>
        rw [hat] at h
        by_cases hk : k < 0
        · simp only [if_pos hk] at h; cases h
        · simp only [if_neg hk] at h
          exact ⟨_, setPrerelease_wrap_ok _ _ _ h⟩
    · rw [incrementPrereleaseVersion_fresh v tag (Or.inr hd)] at h
      exact ⟨_, setPrerelease_wrap_ok _ _ _ h⟩
  · rw [incrementPrereleaseVersion_fresh v tag (Or.inl (by simpa using hb))] at h
    exact ⟨_, setPrerelease_wrap_ok _ _ _ h⟩

/-- Claim C12: when the level `prerelease` succeeds on an accepted version
string, its result is the `major.minor.patch` of the input followed by a new
pre-release and by the build metadata of the input, unchanged. -/
theorem bumpSemver_prerelease_frame (s tag r : Str) (v : Version)
    (hs : NewVersion (stripV s) = .ok v)
    (hr : bumpSemver s "prerelease".toList tag = .ok r) :
    ∃ pre, r = vMark s ++ coreString v.major v.minor v.patch
      ++ suffixString pre v.metadata := by
  obtain ⟨v2, nv, hv2, hd, rfl⟩ := bumpSemver_ok_inv s _ tag r hr
  rw [hs] at hv2
  injection hv2 with hv2
  subst hv2
  rw [dispatch_prerelease] at hd
  obtain ⟨p, hp⟩ := incrementPrereleaseVersion_ok_inv v nv tag hd
  obtain ⟨h1, h2, h3, h4, h5, _⟩ := SetPrerelease_ok_inv v nv p hp
  exact ⟨p, by rw [Version.String_eq, h1, h2, h3, h4, h5, List.append_assoc]⟩

theorem bumpSemver_prerelease_frame_witness :
    ∃ pre, "1.2.3-alpha.0+b7".toList = vMark "1.2.3+b7".toList ++ coreString 1 2 3
      ++ suffixString pre "b7".toList :=
  bumpSemver_prerelease_frame "1.2.3+b7".toList [] "1.2.3-alpha.0+b7".toList
    ⟨1, 2, 3, [], "b7".toList, "1.2.3+b7".toList⟩ (by decide) (by decide)

/-! ## The tag and the standard levels -/

theorem dispatch_standard (v : Version) (level tag : Str)
    (hl : level = "major".toList ∨ level = "minor".toList ∨ level = "patch".toList) :
    ∃ nv, dispatch v level tag = .ok nv ∧ ∀ tag2, dispatch v level tag2 = .ok nv := by
  rcases hl with rfl | rfl | rfl
  · exact ⟨_, dispatch_major v tag, fun t => dispatch_major v t⟩
  · exact ⟨_, dispatch_minor v tag, fun t => dispatch_minor v t⟩
  · exact ⟨_, dispatch_patch v tag, fun t => dispatch_patch v t⟩

/-- Claim C20: for the levels `major`, `minor` and `patch` the tag is ignored,
`bumpSemver` returns the same result or the same error for any two tags, and it
fails only when the parser does not accept the version string. -/
theorem bumpSemver_standard_tag_ignored (s level t1 t2 : Str)
    (hl : level = "major".toList ∨ level = "minor".toList ∨ level = "patch".toList) :
    bumpSemver s level t1 = bumpSemver s level t2
    ∧ ((∃ e, bumpSemver s level t1 = .error e) → ∃ e, NewVersion (stripV s) = .error e) := by
  cases hv : NewVersion (stripV s) with
  | error e =>
    exact ⟨by rw [bumpSemver_of_parse_error s level t1 e hv,
      bumpSemver_of_parse_error s level t2 e hv], fun _ => ⟨e, rfl⟩⟩
  | ok v =>
    obtain ⟨nv, h1, h2⟩ := dispatch_standard v level t1 hl
    refine ⟨by rw [bumpSemver_of_parse_ok s level t1 v hv,
      bumpSemver_of_parse_ok s level t2 v hv, h1, h2 t2], ?_⟩
    rintro ⟨e, he⟩
    rw [bumpSemver_of_parse_ok s level t1 v hv, h1] at he
    cases he

theorem bumpSemver_standard_tag_ignored_witness :
    bumpSemver "1.2.3-rc.3".toList "minor".toList "beta".toList
        = bumpSemver "1.2.3-rc.3".toList "minor".toList "a b".toList
    ∧ ((∃ e, bumpSemver "1.2.3-rc.3".toList "minor".toList "beta".toList = .error e) →
        ∃ e, NewVersion (stripV "1.2.3-rc.3".toList) = .error e) :=
  bumpSemver_standard_tag_ignored "1.2.3-rc.3".toList "minor".toList "beta".toList
    "a b".toList (by decide)

/-! ## An uppercase `V` -/

/-- Claim C13, refuted as stated: `1.2.3` is accepted and level `patch` returns
`1.2.4`, while `V1.2.3` is refused. -/
theorem bumpSemver_upper_V_example :
    bumpSemver "1.2.3".toList "patch".toList [] = .ok "1.2.4".toList
    ∧ bumpSemver "V1.2.3".toList "patch".toList []
        = .error (.invalidSemver .ErrInvalidSemVer) := by
  decide

/-- Claim C13, amended: a leading uppercase `V` is not a prefix; `bumpSemver`
fails on `V` + `s` for every `s`, every level and every tag. -/
theorem bumpSemver_upper_V (s lvl tag : Str) :
    bumpSemver ('V' :: s) lvl tag = .error (.invalidSemver .ErrInvalidSemVer) := by
  apply bumpSemver_of_parse_error
  apply NewVersion_of_no_match
  have h1 : stripV ('V' :: s) = 'V' :: s := by simp [stripV, hasPrefix]
  have h2 : trimPrefixV ('V' :: s) = 'V' :: s := by simp [trimPrefixV]
  have h3 : matchDigits ('V' :: s) = none := by
    simp [matchDigits, List.takeWhile, isNum, num]
  rw [h1, versionRegex, h2, h3]

/-! ## Tags that `SetPrerelease` lets through -/

theorem splitDots_ne_nil (a : Str) : splitDots a ≠ [] := by
  cases a with
  | nil => simp [splitDots]
  | cons c a =>
    unfold splitDots
    split
    · simp
    · split <;> simp

theorem splitDots_append (a b : Str) :
    splitDots (a ++ '.' :: b) = splitDots a ++ splitDots b := by
  induction a with
  | nil => simp [splitDots]
  | cons c a ih =>
    by_cases hc : c = '.'
    · simp [splitDots, hc, ih]
    · cases hsa : splitDots a with
      | nil => exact absurd hsa (splitDots_ne_nil a)
      | cons seg rest =>
        simp [splitDots, hc, ih, hsa]

theorem partOK_iff (p : Str) :
    partOK p = true ↔
      p.all isAllowed = true
        ∧ ¬ (p.all isNum = true ∧ p.length > 1 ∧ p.head? = some '0') := by
  unfold partOK
  by_cases h2 : p.all isAllowed = true
    <;> by_cases h3 : p.all isNum = true <;> by_cases h4 : p.length > 1
    <;> by_cases h5 : p.head? = some '0' <;> simp [h2, h3, h4, h5]

theorem validatePrereleaseParts_cons_bad (p : Str) (ps : List Str) (h : partOK p = false) :
    ∃ e, validatePrereleaseParts (p :: ps) = .error e := by
  have e1 : containsOnly p num = p.all isNum := rfl
  have e2 : containsOnly p allowed = p.all isAllowed := rfl
  have hn : ¬ (p.all isAllowed = true
      ∧ ¬ (p.all isNum = true ∧ p.length > 1 ∧ p.head? = some '0')) := by
    rw [← partOK_iff, h]; simp
  rw [validatePrereleaseParts, e1, e2]
  by_cases h3 : p.all isNum = true
  · rw [if_pos h3]
    have hall := all_isAllowed_of_all_isNum p h3
    by_cases hz : p.length > 1 ∧ p.head? = some '0'
    · rw [if_pos hz]; exact ⟨_, rfl⟩
    · exact absurd ⟨hall, fun hh => hz ⟨hh.2.1, hh.2.2⟩⟩ hn
  · rw [if_neg h3]
    by_cases ha : p.all isAllowed = true
    · exact absurd ⟨ha, fun hh => h3 hh.1⟩ hn
    · rw [if_pos ha]; exact ⟨_, rfl⟩

theorem validatePrereleaseParts_ok_iff (ps : List Str) :
    validatePrereleaseParts ps = .ok () ↔ ps.all partOK = true := by
  induction ps with
  | nil => simp [validatePrereleaseParts]
  | cons p ps ih =>
    cases hp : partOK p with
    | true =>
      obtain ⟨h1, h2⟩ := (partOK_iff p).1 hp
      rw [validatePrereleaseParts_cons p ps h1 h2, ih]
      simp [hp]
    | false =>
      obtain ⟨e, he⟩ := validatePrereleaseParts_cons_bad p ps hp
      rw [he]
      simp [hp]

theorem validatePrerelease_tag_zero_iff (tag : Str) :
    validatePrerelease (tag ++ ".0".toList) = .ok () ↔ validTag tag = true := by
  unfold validatePrerelease validTag
  rw [show tag ++ ".0".toList = tag ++ '.' :: ['0'] from rfl, splitDots_append,
    validatePrereleaseParts_ok_iff, List.all_append]
  have h0 : (splitDots ['0']).all partOK = true := by decide
  rw [h0, Bool.and_true]

theorem effectiveTag_of_ne_nil (tag : Str) (h : tag ≠ []) : effectiveTag tag = tag := by
  unfold effectiveTag
  rw [if_neg h]

/-- The label `tag.0` on a version: `SetPrerelease` succeeds exactly on the tags
whose parts it lets through. -/
theorem SetPrerelease_tag (w : Version) (tag : Str) :
    (validTag tag = true →
      ∃ r, w.SetPrerelease (tag ++ ".0".toList) = .ok r
        ∧ r.String = coreString w.major w.minor w.patch
            ++ suffixString (tag ++ ".0".toList) w.metadata)
    ∧ (validTag tag = false → ∃ e, w.SetPrerelease (tag ++ ".0".toList) = .error e) := by
  constructor
  · intro hv
    obtain ⟨r, hr, h1, h2, h3, h4, h5⟩ :=
      SetPrerelease_of_valid w _ ((validatePrerelease_tag_zero_iff tag).2 hv)
    exact ⟨r, hr, by rw [Version.String_eq, h1, h2, h3, h4, h5]⟩
  · intro hv
    cases hr : w.SetPrerelease (tag ++ ".0".toList) with
    | error e => exact ⟨e, rfl⟩
    | ok r =>
      obtain ⟨_, _, _, _, _, h6⟩ := SetPrerelease_ok_inv w r _ hr
      rcases h6 with h6 | h6
      · simp at h6
      · rw [validatePrerelease_tag_zero_iff, hv] at h6
        cases h6

/-- Claim C11, refuted as stated: with the tag `a b` the level `premajor` fails
on the accepted version string `1.0.0`. -/
theorem bumpSemver_premajor_bad_tag :
    NewVersion (stripV "1.0.0".toList) = .ok ⟨1, 0, 0, [], [], "1.0.0".toList⟩
    ∧ bumpSemver "1.0.0".toList "premajor".toList "a b".toList
        = .error (.setPrerelease .ErrInvalidPrerelease) := by
  decide

/-- Claim C11, amended: on an accepted version string, for a level among
`premajor`, `preminor`, `prepatch`, `bumpSemver` succeeds on every tag made of
non-empty dot-separated parts that use the characters `0-9 A-Z a-z -` only and
are not numbers with a leading zero, and the pre-release of the result is then
the tag followed by `.0`; it fails on every tag with a part that has another
character or that is a number with a leading zero. -/
theorem bumpSemver_pre_level_tag (s level tag : Str) (v : Version)
    (hs : NewVersion (stripV s) = .ok v)
    (hl : level = "premajor".toList ∨ level = "preminor".toList
      ∨ level = "prepatch".toList) :
    (validPrerelease tag = true →
      ∃ a b c, bumpSemver s level tag
        = .ok (vMark s ++ coreString a b c ++ '-' :: tag ++ ".0".toList))
    ∧ (validTag tag = false →
        ∃ e, bumpSemver s level tag = .error (.setPrerelease e)) := by
  have key : ∀ w : Version, w.metadata = [] →
      (validPrerelease tag = true →
        ∃ a b c, (match (match w.SetPrerelease (effectiveTag tag ++ ".0".toList) with
            | .error e => (.error (.setPrerelease e) : Except BumpError Version)
            | .ok r => .ok r) with
          | .error e => (.error e : Except BumpError Str)
          | .ok newVersion => .ok (vMark s ++ newVersion.String))
          = .ok (vMark s ++ coreString a b c ++ '-' :: tag ++ ".0".toList))
      ∧ (validTag tag = false →
        ∃ e, (match (match w.SetPrerelease (effectiveTag tag ++ ".0".toList) with
            | .error e => (.error (.setPrerelease e) : Except BumpError Version)
            | .ok r => .ok r) with
          | .error e => (.error e : Except BumpError Str)
          | .ok newVersion => .ok (vMark s ++ newVersion.String))
          = .error (.setPrerelease e)) := by
    intro w hw
    obtain ⟨hok, hbad⟩ := SetPrerelease_tag w tag
    constructor
    · intro hv
      have ht : tag ≠ [] := by
        rintro rfl
        revert hv
        decide
      have hvt : validTag tag = true := by
        unfold validTag
        rw [List.all_eq_true]
        intro seg hseg
        have := List.all_eq_true.1 hv seg hseg
        simp only [Bool.and_eq_true, decide_eq_true_eq] at this
        exact this.2
      rw [effectiveTag_of_ne_nil tag ht]
      obtain ⟨r, hr, hstr⟩ := hok hvt
      refine ⟨w.major, w.minor, w.patch, ?_⟩
      rw [hr]
      simp [hstr, hw, suffixString, ht]
    · intro hv
      have ht : tag ≠ [] := by
        rintro rfl
        revert hv
        decide
      rw [effectiveTag_of_ne_nil tag ht]
      obtain ⟨e, he⟩ := hbad hv
      exact ⟨e, by rw [he]⟩
  rcases hl with rfl | rfl | rfl
  · rw [bumpSemver_of_parse_ok s _ _ v hs, dispatch_premajor]
    exact key v.IncMajor rfl
  · rw [bumpSemver_of_parse_ok s _ _ v hs, dispatch_preminor]
    exact key v.IncMinor rfl
  · rw [bumpSemver_of_parse_ok s _ _ v hs, dispatch_prepatch]
    exact key v.IncPatch (by unfold Version.IncPatch; split <;> rfl)

theorem bumpSemver_pre_level_tag_witness :
    ∃ a b c, bumpSemver "1.0.0".toList "premajor".toList "xyz123".toList
      = .ok (vMark "1.0.0".toList ++ coreString a b c ++ '-' :: "xyz123".toList
          ++ ".0".toList) :=
  (bumpSemver_pre_level_tag "1.0.0".toList "premajor".toList "xyz123".toList
    ⟨1, 0, 0, [], [], "1.0.0".toList⟩ (by decide) (by decide)).1 (by decide)

/-! ## The pre-release that `versionRegex` reads -/

theorem versionRegex_eq_tail (t : Str) :
    versionRegex t =
      match matchDigits (trimPrefixV t) with
      | none => none
      | some (m1, r1) =>
        match versionTail (matchDotDigits (matchDotDigits r1).2).2 with
        | none => none
        | some (m5, m8) =>
          some ⟨m1, (matchDotDigits r1).1, (matchDotDigits (matchDotDigits r1).2).1, m5, m8⟩ := by
  unfold versionRegex
  cases matchDigits (trimPrefixV t) with
  | none => rfl
  | some x =>
    obtain ⟨m1, r1⟩ := x
    simp only
    generalize (matchDotDigits (matchDotDigits r1).2).2 = r3
    unfold versionTail
    split
    · cases matchIdents _ with
      | none => rfl
      | some y =>
        obtain ⟨m5, r4⟩ := y
        simp only
        cases matchMetadata r4 <;> rfl
    · cases matchMetadata r3 <;> rfl

theorem versionRegex_parts (t : Str) (m : Submatch) (h : versionRegex t = some m) :
    ∃ r3, trimPrefixV t = m.m1 ++ (m.m2 ++ (m.m3 ++ r3))
      ∧ versionTail r3 = some (m.m5, m.m8)
      ∧ m.m1 ≠ [] ∧ m.m1.all isNum = true
      ∧ (m.m2 = [] ∨ ∃ d, m.m2 = '.' :: d ∧ d ≠ [] ∧ d.all isNum = true)
      ∧ (m.m3 = [] ∨ ∃ d, m.m3 = '.' :: d ∧ d ≠ [] ∧ d.all isNum = true) := by
  rw [versionRegex_eq_tail] at h
  cases hm1 : matchDigits (trimPrefixV t) with
  | none => rw [hm1] at h; cases h
  | some x =>
    obtain ⟨m1, r1⟩ := x
    rw [hm1] at h
    simp only at h
    obtain ⟨e1, n1, a1⟩ := matchDigits_some _ _ _ hm1
    generalize hg2 : matchDotDigits r1 = x2 at h
    obtain ⟨m2, r2⟩ := x2
    simp only at h
    generalize hg3 : matchDotDigits r2 = x3 at h
    obtain ⟨m3, r3⟩ := x3
    simp only at h
    obtain ⟨e2, p2⟩ := matchDotDigits_eq r1 m2 r2 hg2
    obtain ⟨e3, p3⟩ := matchDotDigits_eq r2 m3 r3 hg3
    cases ht : versionTail r3 with
    | none => rw [ht] at h; cases h
    | some y =>
      obtain ⟨m5, m8⟩ := y
      rw [ht] at h
      injection h with h
      subst h
      exact ⟨r3, by rw [e1, e2, e3], ht, n1, a1, p2, p3⟩

theorem matchIdents_some (s ids rest : Str) (h : matchIdents s = some (ids, rest)) :
    s = ids ++ rest ∧ (∀ c ∈ ids, (isAllowed c || c == '.') = true)
      ∧ (splitDots ids).all (fun p => decide (p ≠ [])) = true := by
  unfold matchIdents at h
  split at h
  · rename_i hall
    injection h with h
    injection h with h1 h2
    subst h1 h2
    exact ⟨(List.takeWhile_append_dropWhile _ s).symm,
      fun c hc => List.mem_takeWhile_imp (p := fun c => isAllowed c || c == '.') hc, hall⟩
  · cases h

theorem takeWhile_not_plus (m5 r4 : Str)
    (h5 : ∀ c ∈ m5, (isAllowed c || c == '.') = true)
    (h4 : r4 = [] ∨ ∃ w, r4 = '+' :: w) :
    (m5 ++ r4).takeWhile (fun c => c != '+') = m5 := by
  rw [List.takeWhile_append_of_pos]
  · rcases h4 with rfl | ⟨w, rfl⟩
    · simp
    · simp [List.takeWhile]
  · intro c hc
    have := h5 c hc
    have hne : c ≠ '+' := by
      rintro rfl
      revert this
      decide
    simp [hne]

/-- The pre-release `m[5]` is the text between the `-` that follows the core and
the first `+`. -/
theorem versionTail_pre (r3 m5 m8 : Str) (h : versionTail r3 = some (m5, m8)) :
    (r3 = [] ∨ ∃ w, r3 = '-' :: w ∨ r3 = '+' :: w)
    ∧ tailPrerelease r3 = m5 := by
  cases r3 with
  | nil =>
    simp only [versionTail, matchMetadata] at h
    injection h with h
    injection h with h1 h2
    exact ⟨Or.inl rfl, h1⟩
  | cons c w =>
    by_cases hc : c = '-'
    · subst hc
      simp only [versionTail] at h
      cases hi : matchIdents w with
      | none => rw [hi] at h; cases h
      | some x =>
        obtain ⟨i5, r4⟩ := x
        rw [hi] at h
        simp only at h
        cases hm : matchMetadata r4 with
        | none => rw [hm] at h; cases h
        | some i8 =>
          rw [hm] at h
          injection h with h
          injection h with h1 h2
          subst h1
          obtain ⟨e, hall, _⟩ := matchIdents_some w i5 r4 hi
          refine ⟨Or.inr ⟨w, Or.inl rfl⟩, ?_⟩
          simp only [tailPrerelease]
          rw [e]
          exact takeWhile_not_plus i5 r4 hall (matchMetadata_some r4 i8 hm)
    · unfold versionTail at h
      split at h
      · rename_i heq; cases heq; exact absurd rfl hc
      · cases hm : matchMetadata (c :: w) with
        | none => rw [hm] at h; cases h
        | some i8 =>
          rw [hm] at h
          injection h with h
          injection h with h1 h2
          rcases matchMetadata_some _ _ hm with h0 | ⟨w2, hw2⟩
          · cases h0
          · injection hw2 with hw2a hw2b
            subst hw2a
            exact ⟨Or.inr ⟨w, Or.inr rfl⟩, h1⟩

theorem prereleaseOf_eq (s : Str) :
    prereleaseOf s = tailPrerelease ((stripV s).dropWhile notSep) := by
  unfold prereleaseOf tailPrerelease
  rfl

theorem dropWhile_notSep_trimPrefixV (t : Str) :
    t.dropWhile notSep = (trimPrefixV t).dropWhile notSep := by
  unfold trimPrefixV
  split
  · simp [List.dropWhile, notSep]
  · rfl

theorem dropWhile_notSep_rest (r3 : Str)
    (h : r3 = [] ∨ ∃ w, r3 = '-' :: w ∨ r3 = '+' :: w) :
    r3.dropWhile notSep = r3 := by
  rcases h with rfl | ⟨w, rfl | rfl⟩
  · rfl
  · simp [List.dropWhile, notSep]
  · simp [List.dropWhile, notSep]

theorem versionRegex_prereleaseOf (s : Str) (m : Submatch)
    (h : versionRegex (stripV s) = some m) : prereleaseOf s = m.m5 := by
  obtain ⟨r3, hshape, htail, n1, a1, p2, p3⟩ := versionRegex_parts _ m h
  obtain ⟨hr3, hpre⟩ := versionTail_pre r3 _ _ htail
  rw [prereleaseOf_eq, dropWhile_notSep_trimPrefixV, hshape,
    List.dropWhile_append_of_pos
      (fun c hc => notSep_of_isNum c (List.all_eq_true.1 a1 c hc)),
    List.dropWhile_append_of_pos (notSep_of_mem_group _ p2),
    List.dropWhile_append_of_pos (notSep_of_mem_group _ p3),
    dropWhile_notSep_rest r3 hr3]
  exact hpre

/-! ## A zero-padded number in the pre-release -/

theorem partOK_of_zeroPadded (p : Str) (h : zeroPadded p = true) : partOK p = false := by
  unfold zeroPadded at h
  unfold partOK
  simp only [Bool.and_eq_true, decide_eq_true_eq, beq_iff_eq] at h
  obtain ⟨⟨h1, h2⟩, h3⟩ := h
  simp [h1, h2, h3]

theorem validatePrerelease_zeroPadded (pre : Str)
    (h : (splitDots pre).any zeroPadded = true) :
    ∃ e, validatePrerelease pre = .error e := by
  unfold validatePrerelease
  cases hv : validatePrereleaseParts (splitDots pre) with
  | error e => exact ⟨e, rfl⟩
  | ok u =>
    have hall := (validatePrereleaseParts_ok_iff _).1 hv
    rw [List.any_eq_true] at h
    obtain ⟨p, hp, hz⟩ := h
    have := List.all_eq_true.1 hall p hp
    rw [partOK_of_zeroPadded p hz] at this
    cases this

theorem NewVersion_of_bad_prerelease (t : Str) (m : Submatch)
    (hm : versionRegex t = some m) (hne : m.m5 ≠ [])
    (hbad : ∃ e, validatePrerelease m.m5 = .error e) :
    ∃ e, NewVersion t = .error e := by
  obtain ⟨e, he⟩ := hbad
  unfold NewVersion
  rw [hm]
  simp only
  cases parseUint m.m1 with
  | none => exact ⟨_, rfl⟩
  | some major =>
    simp only
    cases (if m.m2 ≠ [] then parseUint (trimPrefixDot m.m2) else some 0) with
    | none => exact ⟨_, rfl⟩
    | some minor =>
      simp only
      cases (if m.m3 ≠ [] then parseUint (trimPrefixDot m.m3) else some 0) with
      | none => exact ⟨_, rfl⟩
      | some patch =>
        simp only
        rw [if_pos hne, he]
        exact ⟨_, rfl⟩

/-- Claim C15: whatever the level and the tag, `bumpSemver` fails on every
version string whose pre-release has, among its dot-separated identifiers, one
made of digits only and written with a leading zero. -/
theorem bumpSemver_zero_padded_prerelease (s lvl tag : Str)
    (h : (splitDots (prereleaseOf s)).any zeroPadded = true) :
    ∃ e, bumpSemver s lvl tag = .error (.invalidSemver e) := by
  cases hm : versionRegex (stripV s) with
  | none =>
    exact ⟨_, bumpSemver_of_parse_error s lvl tag _ (NewVersion_of_no_match _ hm)⟩
  | some m =>
    have hpre := versionRegex_prereleaseOf s m hm
    rw [hpre] at h
    have hne : m.m5 ≠ [] := by
      intro h0
      rw [h0] at h
      revert h
      decide
    obtain ⟨e, he⟩ := NewVersion_of_bad_prerelease _ m hm hne
      (validatePrerelease_zeroPadded _ h)
    exact ⟨e, bumpSemver_of_parse_error s lvl tag e he⟩

theorem bumpSemver_zero_padded_prerelease_witness :
    ∃ e, bumpSemver "1.0.0-alpha.01".toList "major".toList [] = .error (.invalidSemver e) :=
  bumpSemver_zero_padded_prerelease "1.0.0-alpha.01".toList "major".toList [] (by decide)

/-! ## The field `original` does not reach the result -/

theorem SetPrerelease_congr (v w : Version) (p : Str)
    (h : v.major = w.major ∧ v.minor = w.minor ∧ v.patch = w.patch
      ∧ v.metadata = w.metadata) :
    resultText (match v.SetPrerelease p with
      | .error e => .error (.setPrerelease e)
      | .ok r => .ok r)
    = resultText (match w.SetPrerelease p with
      | .error e => .error (.setPrerelease e)
      | .ok r => .ok r) := by
  obtain ⟨h1, h2, h3, h4⟩ := h
  cases hv : (if p.length > 0 then validatePrerelease p else .ok ()) with
  | error e =>
    have ev : v.SetPrerelease p = .error e := by unfold Version.SetPrerelease; rw [hv]
    have ew : w.SetPrerelease p = .error e := by unfold Version.SetPrerelease; rw [hv]
    rw [ev, ew]
  | ok u =>
    have ev : v.SetPrerelease p = .ok { ({ v with pre := p } : Version) with
        original := v.originalVPrefix ++ ({ v with pre := p } : Version).String } := by
      unfold Version.SetPrerelease; rw [hv]
    have ew : w.SetPrerelease p = .ok { ({ w with pre := p } : Version) with
        original := w.originalVPrefix ++ ({ w with pre := p } : Version).String } := by
      unfold Version.SetPrerelease; rw [hv]
    rw [ev, ew]
    simp [resultText, Version.String, h1, h2, h3, h4]

theorem incrementPrereleaseVersion_congr (v w : Version) (tag : Str)
    (h : v.major = w.major ∧ v.minor = w.minor ∧ v.patch = w.patch
      ∧ v.pre = w.pre ∧ v.metadata = w.metadata) :
    resultText (incrementPrereleaseVersion v tag)
      = resultText (incrementPrereleaseVersion w tag) := by
  obtain ⟨h1, h2, h3, h4, h5⟩ := h
  have h' : v.major = w.major ∧ v.minor = w.minor ∧ v.patch = w.patch
      ∧ v.metadata = w.metadata := ⟨h1, h2, h3, h5⟩
  by_cases hb : hasPrefix v.pre (effectiveTag tag) = true
  · by_cases hd : '.' ∈ v.pre
    · obtain ⟨a, b, hab, ha⟩ := split_first_dot v.pre hd
      rw [incrementPrereleaseVersion_number v tag a b hab ha hb,
        incrementPrereleaseVersion_number w tag a b (h4 ▸ hab) ha (h4 ▸ hb)]
      cases atoi b with
      | none => rfl
      | some k =>
        by_cases hk : k < 0
        · simp only [if_pos hk]
        · simp only [if_neg hk]
          exact SetPrerelease_congr v w _ h'
    · rw [incrementPrereleaseVersion_fresh v tag (Or.inr hd),
        incrementPrereleaseVersion_fresh w tag (Or.inr (h4 ▸ hd))]
      exact SetPrerelease_congr v w _ h'
  · have hb' : hasPrefix v.pre (effectiveTag tag) = false := by simpa using hb
    rw [incrementPrereleaseVersion_fresh v tag (Or.inl hb'),
      incrementPrereleaseVersion_fresh w tag (Or.inl (h4 ▸ hb'))]
    exact SetPrerelease_congr v w _ h'

/-- Two versions that differ in the field `original` only are bumped to the same
text, or to the same error. -/
theorem dispatch_congr (v w : Version) (lvl tag : Str)
    (h : v.major = w.major ∧ v.minor = w.minor ∧ v.patch = w.patch
      ∧ v.pre = w.pre ∧ v.metadata = w.metadata) :
    resultText (dispatch v lvl tag) = resultText (dispatch w lvl tag) := by
  obtain ⟨h1, h2, h3, h4, h5⟩ := h
  by_cases l1 : lvl = "major".toList
  · subst l1
    rw [dispatch_major, dispatch_major]
    simp [resultText, Version.String, Version.IncMajor, h1]
  by_cases l2 : lvl = "minor".toList
  · subst l2
    rw [dispatch_minor, dispatch_minor]
    simp [resultText, Version.String, Version.IncMinor, h1, h2]
  by_cases l3 : lvl = "patch".toList
  · subst l3
    rw [dispatch_patch, dispatch_patch]
    by_cases hp : w.pre = [] <;>
      simp [resultText, Version.String, Version.IncPatch, h1, h2, h3, h4, hp]
  by_cases l4 : lvl = "premajor".toList
  · subst l4
    rw [dispatch_premajor, dispatch_premajor]
    exact SetPrerelease_congr _ _ _ (by simp [Version.IncMajor, h1])
  by_cases l5 : lvl = "preminor".toList
  · subst l5
    rw [dispatch_preminor, dispatch_preminor]
    exact SetPrerelease_congr _ _ _ (by simp [Version.IncMinor, h1, h2])
  by_cases l6 : lvl = "prepatch".toList
  · subst l6
    rw [dispatch_prepatch, dispatch_prepatch]
    exact SetPrerelease_congr _ _ _
      (by by_cases hp : w.pre = [] <;> simp [Version.IncPatch, h1, h2, h3, h4, hp])
  by_cases l7 : lvl = "prerelease".toList
  · subst l7
    rw [dispatch_prerelease, dispatch_prerelease]
    exact incrementPrereleaseVersion_congr v w tag ⟨h1, h2, h3, h4, h5⟩
  · unfold dispatch
    rw [if_neg (by rintro (h | h | h) <;> contradiction),
      if_neg (by rintro (h | h | h | h) <;> contradiction),
      if_neg (by rintro (h | h | h) <;> contradiction),
      if_neg (by rintro (h | h | h | h) <;> contradiction)]

theorem bumpSemver_of_parse_ok_text (s lvl tag : Str) (v : Version)
    (h : NewVersion (stripV s) = .ok v) :
    bumpSemver s lvl tag =
      match resultText (dispatch v lvl tag) with
      | .error e => .error e
      | .ok text => .ok (vMark s ++ text) := by
  rw [bumpSemver_of_parse_ok s lvl tag v h]
  cases dispatch v lvl tag <;> rfl

/-! ## Parsing a text of the form `major.minor.patch` and a remainder -/

theorem NewVersion_eq (v : Str) :
    NewVersion v =
      match versionRegex v with
      | none => .error .ErrInvalidSemVer
      | some m => versionOfMatch m v := by
  unfold NewVersion versionOfMatch
  cases versionRegex v <;> rfl

theorem takeWhile_isNum_append (d X : Str) (hd : d.all isNum = true)
    (hX : X = [] ∨ ∃ c w, X = c :: w ∧ isNum c = false) :
    (d ++ X).takeWhile isNum = d ∧ (d ++ X).dropWhile isNum = X := by
  have hpos : ∀ c ∈ d, isNum c = true := List.all_eq_true.1 hd
  rw [List.takeWhile_append_of_pos hpos, List.dropWhile_append_of_pos hpos]
  rcases hX with rfl | ⟨c, w, rfl, hc⟩
  · simp
  · simp [List.takeWhile, List.dropWhile, hc]

theorem matchDigits_append (d X : Str) (hne : d ≠ []) (hd : d.all isNum = true)
    (hX : X = [] ∨ ∃ c w, X = c :: w ∧ isNum c = false) :
    matchDigits (d ++ X) = some (d, X) := by
  obtain ⟨h1, h2⟩ := takeWhile_isNum_append d X hd hX
  unfold matchDigits
  rw [h1, h2, if_neg hne]

theorem matchDotDigits_dot (d X : Str) (hne : d ≠ []) (hd : d.all isNum = true)
    (hX : X = [] ∨ ∃ c w, X = c :: w ∧ isNum c = false) :
    matchDotDigits ('.' :: (d ++ X)) = ('.' :: d, X) := by
  unfold matchDotDigits
  simp only [matchDigits_append d X hne hd hX]

theorem head_not_num_of_dot (X : Str) :
    '.' :: X = [] ∨ ∃ c w, '.' :: X = c :: w ∧ isNum c = false :=
  Or.inr ⟨'.', X, rfl, by decide⟩

theorem head_not_num_of_rest (rest : Str)
    (h : rest = [] ∨ ∃ w, rest = '-' :: w ∨ rest = '+' :: w) :
    rest = [] ∨ ∃ c w, rest = c :: w ∧ isNum c = false := by
  rcases h with h | ⟨w, h | h⟩
  · exact Or.inl h
  · exact Or.inr ⟨'-', w, h, by decide⟩
  · exact Or.inr ⟨'+', w, h, by decide⟩

theorem trimPrefixV_of_digits (d X : Str) (hne : d ≠ []) (hd : d.all isNum = true) :
    trimPrefixV (d ++ X) = d ++ X := by
  cases d with
  | nil => contradiction
  | cons c d =>
    have hc : isNum c = true := by
      simp only [List.all_cons, Bool.and_eq_true] at hd
      exact hd.1
    have hv := isNum_ne_v c hc
    show trimPrefixV (c :: (d ++ X)) = c :: (d ++ X)
    unfold trimPrefixV
    split
    · rename_i heq; cases heq; exact absurd rfl hv
    · rfl

/-- The submatches of a text `major.minor.patch` followed by a remainder, with
or without the `v` of the parser in front. -/
theorem versionRegex_three (q d1 d2 d3 rest : Str) (hq : q = [] ∨ q = ['v'])
    (n1 : d1 ≠ []) (a1 : d1.all isNum = true)
    (n2 : d2 ≠ []) (a2 : d2.all isNum = true)
    (n3 : d3 ≠ []) (a3 : d3.all isNum = true)
    (hrest : rest = [] ∨ ∃ w, rest = '-' :: w ∨ rest = '+' :: w) :
    versionRegex (q ++ (d1 ++ '.' :: (d2 ++ '.' :: (d3 ++ rest)))) =
      match versionTail rest with
      | none => none
      | some (m5, m8) => some ⟨d1, '.' :: d2, '.' :: d3, m5, m8⟩ := by
  have ht : trimPrefixV (q ++ (d1 ++ '.' :: (d2 ++ '.' :: (d3 ++ rest))))
      = d1 ++ '.' :: (d2 ++ '.' :: (d3 ++ rest)) := by
    rcases hq with rfl | rfl
    · exact trimPrefixV_of_digits d1 _ n1 a1
    · rfl
  rw [versionRegex_eq_tail, ht, matchDigits_append d1 _ n1 a1 (head_not_num_of_dot _)]
  simp only [matchDotDigits_dot d2 _ n2 a2 (head_not_num_of_dot _),
    matchDotDigits_dot d3 _ n3 a3 (head_not_num_of_rest rest hrest)]

/-! ## Leading zeros in `major.minor.patch` -/

theorem digitsValue_append (a b : Str) :
    digitsValue (a ++ b) = b.foldl (fun n c => 10 * n + digitVal c) (digitsValue a) := by
  simp [digitsValue, List.foldl_append]

theorem digitsValue_zeros (z : Str) (hz : z.all (fun c => c == '0') = true) :
    digitsValue z = 0 := by
  induction z using List.reverseRecOn with
  | nil => rfl
  | append_singleton z c ih =>
    rw [List.all_append, Bool.and_eq_true] at hz
    have hc : c = '0' := by simpa using hz.2
    rw [digitsValue_append_single, ih hz.1, hc]
    rfl

theorem all_isNum_zeros (z : Str) (hz : z.all (fun c => c == '0') = true) :
    z.all isNum = true := by
  rw [List.all_eq_true] at hz ⊢
  intro c hc
  have : c = '0' := by simpa using hz c hc
  rw [this]
  rfl

theorem parseUint_pad (z d : Str) (hz : z.all (fun c => c == '0') = true) (hne : d ≠ []) :
    parseUint (z ++ d) = parseUint d := by
  have hv : digitsValue (z ++ d) = digitsValue d := by
    rw [digitsValue_append, digitsValue_zeros z hz]
    rfl
  have ha : (z ++ d).all isNum = d.all isNum := by
    rw [List.all_append, all_isNum_zeros z hz, Bool.true_and]
  unfold parseUint
  rw [hv, ha, if_neg (by simp [hne]), if_neg hne]

theorem versionOfMatch_pad (z1 z2 z3 d1 d2 d3 m5 m8 o o2 : Str)
    (hz1 : z1.all (fun c => c == '0') = true) (hz2 : z2.all (fun c => c == '0') = true)
    (hz3 : z3.all (fun c => c == '0') = true)
    (n1 : d1 ≠ []) (n2 : d2 ≠ []) (n3 : d3 ≠ []) :
    versionOfMatch ⟨z1 ++ d1, '.' :: (z2 ++ d2), '.' :: (z3 ++ d3), m5, m8⟩ o2 =
      match versionOfMatch ⟨d1, '.' :: d2, '.' :: d3, m5, m8⟩ o with
      | .error e => .error e
      | .ok v => .ok { v with original := o2 } := by
  unfold versionOfMatch
  simp only [trimPrefixDot, parseUint_pad z1 d1 hz1 n1, parseUint_pad z2 d2 hz2 n2,
    parseUint_pad z3 d3 hz3 n3, ne_eq, reduceCtorEq, not_false_eq_true, if_true]
  cases parseUint d1 with
  | none => rfl
  | some major =>
    cases parseUint d2 with
    | none => rfl
    | some minor =>
      cases parseUint d3 with
      | none => rfl
      | some patch =>
        simp only
        cases (if ¬ m5 = [] then validatePrerelease m5 else .ok ()) with
        | error e => rfl
        | ok u =>
          simp only
          cases (if ¬ m8 = [] then validateMetadata m8 else .ok ()) with
          | error e => rfl
          | ok u2 => rfl

theorem stripV_prefixed (p d X : Str) (hp : p = [] ∨ p = ['v'] ∨ p = ['v', 'v'])
    (hne : d ≠ []) (hd : d.all isNum = true) :
    stripV (p ++ (d ++ X)) = p.drop 1 ++ (d ++ X) ∧ vMark (p ++ (d ++ X)) = p.take 1
      ∧ (p.drop 1 = [] ∨ p.drop 1 = ['v']) := by
  rcases hp with rfl | rfl | rfl
  · cases d with
    | nil => contradiction
    | cons c d =>
      have hc : isNum c = true := by
        simp only [List.all_cons, Bool.and_eq_true] at hd
        exact hd.1
      have hv : ¬ ('v' = c) := fun h => isNum_ne_v c hc h.symm
      have hp : hasPrefix ([] ++ (c :: d ++ X)) ['v'] = false := by
        simp [hasPrefix, List.isPrefixOf, hv]
      exact ⟨stripV_of_not_v _ hp, vMark_of_not_v _ hp, Or.inl rfl⟩
  · exact ⟨stripV_cons_v _, vMark_cons_v _, Or.inl rfl⟩
  · exact ⟨stripV_cons_v _, vMark_cons_v _, Or.inr rfl⟩

theorem all_isNum_pad (z d : Str) (hz : z.all (fun c => c == '0') = true)
    (hd : d.all isNum = true) : (z ++ d).all isNum = true := by
  rw [List.all_append, all_isNum_zeros z hz, hd]
  rfl

theorem zeroPadded_formatUint (n : Nat) : zeroPadded (formatUint n) = false := by
  obtain ⟨c, rest, he, _, hz⟩ := formatUint_cons n
  unfold zeroPadded
  rw [he]
  by_cases hc : c = '0'
  · simp [hz hc]
  · simp [hc]

/-- The text of a successful result: the leading `v` of the input, three
rendered numbers, then the pre-release and the build metadata. -/
theorem bumpSemver_ok_text (cv lvl tag r : Str) (h : bumpSemver cv lvl tag = .ok r) :
    ∃ a b c pre metadata,
      r = vMark cv ++ coreString a b c ++ suffixString pre metadata := by
  obtain ⟨v, nv, _, _, rfl⟩ := bumpSemver_ok_inv cv lvl tag r h
  exact ⟨nv.major, nv.minor, nv.patch, nv.pre, nv.metadata,
    by rw [Version.String_eq, List.append_assoc]⟩

/-- Claim C14: in a version string `major.minor.patch` followed by a
pre-release or build metadata section or by nothing, with or without leading
`v`, zeros put in front of the three numbers change neither the acceptance nor
the result of `bumpSemver`, whatever the level and the tag; and in a successful
result none of the three numbers is written with a leading zero. -/
theorem bumpSemver_zero_padding (p z1 z2 z3 d1 d2 d3 rest lvl tag : Str)
    (hp : p = [] ∨ p = ['v'] ∨ p = ['v', 'v'])
    (hz1 : z1.all (fun c => c == '0') = true) (hz2 : z2.all (fun c => c == '0') = true)
    (hz3 : z3.all (fun c => c == '0') = true)
    (h1 : d1 ≠ [] ∧ d1.all isNum = true) (h2 : d2 ≠ [] ∧ d2.all isNum = true)
    (h3 : d3 ≠ [] ∧ d3.all isNum = true)
    (hrest : rest = [] ∨ ∃ w, rest = '-' :: w ∨ rest = '+' :: w) :
    bumpSemver (p ++ (z1 ++ d1) ++ '.' :: (z2 ++ d2) ++ '.' :: (z3 ++ d3) ++ rest) lvl tag
      = bumpSemver (p ++ d1 ++ '.' :: d2 ++ '.' :: d3 ++ rest) lvl tag
    ∧ ((∃ v, NewVersion (stripV (p ++ d1 ++ '.' :: d2 ++ '.' :: d3 ++ rest)) = .ok v) →
        ∃ v, NewVersion (stripV
          (p ++ (z1 ++ d1) ++ '.' :: (z2 ++ d2) ++ '.' :: (z3 ++ d3) ++ rest)) = .ok v)
    ∧ (∀ cv r, bumpSemver cv lvl tag = .ok r →
        ∃ a b c pre metadata,
          r = vMark cv ++ coreString a b c ++ suffixString pre metadata
          ∧ zeroPadded (formatUint a) = false ∧ zeroPadded (formatUint b) = false
          ∧ zeroPadded (formatUint c) = false) := by
  obtain ⟨n1, a1⟩ := h1
  obtain ⟨n2, a2⟩ := h2
  obtain ⟨n3, a3⟩ := h3
  have e : p ++ d1 ++ '.' :: d2 ++ '.' :: d3 ++ rest
      = p ++ (d1 ++ '.' :: (d2 ++ '.' :: (d3 ++ rest))) := by simp
  have e2 : p ++ (z1 ++ d1) ++ '.' :: (z2 ++ d2) ++ '.' :: (z3 ++ d3) ++ rest
      = p ++ ((z1 ++ d1) ++ '.' :: ((z2 ++ d2) ++ '.' :: ((z3 ++ d3) ++ rest))) := by simp
  rw [e, e2]
  have m1 : z1 ++ d1 ≠ [] := by simp [n1]
  have m2 : z2 ++ d2 ≠ [] := by simp [n2]
  have m3 : z3 ++ d3 ≠ [] := by simp [n3]
  obtain ⟨hs, hm, hq⟩ := stripV_prefixed p d1
    ('.' :: (d2 ++ '.' :: (d3 ++ rest))) hp n1 a1
  obtain ⟨hs2, hm2, _⟩ := stripV_prefixed p (z1 ++ d1)
    ('.' :: ((z2 ++ d2) ++ '.' :: ((z3 ++ d3) ++ rest))) hp m1 (all_isNum_pad z1 d1 hz1 a1)
  have hN := NewVersion_eq (stripV (p ++ (d1 ++ '.' :: (d2 ++ '.' :: (d3 ++ rest)))))
  have hN2 := NewVersion_eq
    (stripV (p ++ ((z1 ++ d1) ++ '.' :: ((z2 ++ d2) ++ '.' :: ((z3 ++ d3) ++ rest)))))
  rw [hs, versionRegex_three _ d1 d2 d3 rest hq n1 a1 n2 a2 n3 a3 hrest, ← hs] at hN
  rw [hs2, versionRegex_three _ (z1 ++ d1) (z2 ++ d2) (z3 ++ d3) rest hq m1
    (all_isNum_pad z1 d1 hz1 a1) m2 (all_isNum_pad z2 d2 hz2 a2) m3
    (all_isNum_pad z3 d3 hz3 a3) hrest, ← hs2] at hN2
  have hthird : ∀ cv r, bumpSemver cv lvl tag = .ok r →
      ∃ a b c pre metadata,
        r = vMark cv ++ coreString a b c ++ suffixString pre metadata
        ∧ zeroPadded (formatUint a) = false ∧ zeroPadded (formatUint b) = false
        ∧ zeroPadded (formatUint c) = false := by
    intro cv r hr
    obtain ⟨a, b, c, pre, md, hrr⟩ := bumpSemver_ok_text cv lvl tag r hr
    exact ⟨a, b, c, pre, md, hrr, zeroPadded_formatUint a, zeroPadded_formatUint b,
      zeroPadded_formatUint c⟩
  cases ht : versionTail rest with
  | none =>
    rw [ht] at hN hN2
    refine ⟨?_, ?_, hthird⟩
    · rw [bumpSemver_of_parse_error _ lvl tag _ hN, bumpSemver_of_parse_error _ lvl tag _ hN2]
    · rintro ⟨v, hv⟩
      rw [hN] at hv
      cases hv
  | some x =>
    obtain ⟨m5, m8⟩ := x
    rw [ht] at hN hN2
    simp only at hN hN2
    rw [versionOfMatch_pad z1 z2 z3 d1 d2 d3 m5 m8
      (stripV (p ++ (d1 ++ '.' :: (d2 ++ '.' :: (d3 ++ rest))))) _ hz1 hz2 hz3 n1 n2 n3] at hN2
    cases hv : versionOfMatch ⟨d1, '.' :: d2, '.' :: d3, m5, m8⟩
        (stripV (p ++ (d1 ++ '.' :: (d2 ++ '.' :: (d3 ++ rest))))) with
    | error e =>
      rw [hv] at hN hN2
      refine ⟨?_, ?_, hthird⟩
      · rw [bumpSemver_of_parse_error _ lvl tag _ hN,
          bumpSemver_of_parse_error _ lvl tag _ hN2]
      · rintro ⟨v, hv2⟩
        rw [hN] at hv2
        cases hv2
    | ok v =>
      rw [hv] at hN hN2
      refine ⟨?_, fun _ => ⟨_, hN2⟩, hthird⟩
      have hc : ∀ o2 : Str, resultText (dispatch { v with original := o2 } lvl tag)
          = resultText (dispatch v lvl tag) :=
        fun o2 => dispatch_congr _ v lvl tag ⟨rfl, rfl, rfl, rfl, rfl⟩
      rw [bumpSemver_of_parse_ok_text _ lvl tag _ hN,
        bumpSemver_of_parse_ok_text _ lvl tag _ hN2, hm, hm2, hc]

theorem bumpSemver_zero_padding_witness :
    bumpSemver ([] ++ ([] ++ "1".toList) ++ '.' :: ("0".toList ++ "5".toList)
        ++ '.' :: ([] ++ "0".toList) ++ []) "minor".toList []
      = bumpSemver ([] ++ "1".toList ++ '.' :: "5".toList ++ '.' :: "0".toList ++ [])
          "minor".toList [] :=
  (bumpSemver_zero_padding [] [] "0".toList [] "1".toList "5".toList "0".toList []
    "minor".toList [] (by decide) (by decide) (by decide) (by decide) (by decide)
    (by decide) (by decide) (Or.inl rfl)).1

/-! ## Rendering the value of a canonical number -/

theorem formatUintAux_fuel (f1 f2 n : Nat) (h1 : n < f1) (h2 : n < f2) :
    formatUintAux f1 n = formatUintAux f2 n := by
  induction f1 generalizing f2 n with
  | zero => omega
  | succ f1 ih =>
    cases f2 with
    | zero => omega
    | succ f2 =>
      unfold formatUintAux
      split
      · rfl
      · rw [ih f2 (n / 10) (by omega) (by omega)]

theorem formatUint_lt_ten (n : Nat) (h : n < 10) : formatUint n = [digitChar n] := by
  unfold formatUint formatUintAux
  rw [if_pos h]

theorem formatUint_ge_ten (n : Nat) (h : 10 ≤ n) :
    formatUint n = formatUint (n / 10) ++ [digitChar (n % 10)] := by
  unfold formatUint
  rw [formatUintAux, if_neg (by omega),
    formatUintAux_fuel n (n / 10 + 1) (n / 10) (by omega) (by omega)]

theorem isNum_cases (c : Char) (h : isNum c = true) :
    c = '0' ∨ c = '1' ∨ c = '2' ∨ c = '3' ∨ c = '4' ∨ c = '5' ∨ c = '6' ∨ c = '7'
      ∨ c = '8' ∨ c = '9' := by
  simpa [isNum, num] using h

theorem digitChar_digitVal (c : Char) (h : isNum c = true) :
    digitChar (digitVal c) = c ∧ digitVal c < 10 := by
  rcases isNum_cases c h with h | h | h | h | h | h | h | h | h | h <;> subst h <;> decide

theorem formatUint_digitsValue (d : Str) (hne : d ≠ []) (hd : d.all isNum = true)
    (hz : zeroPadded d = false) : formatUint (digitsValue d) = d := by
  induction d using List.reverseRecOn with
  | nil => contradiction
  | append_singleton l c ih =>
    rw [List.all_append, Bool.and_eq_true] at hd
    obtain ⟨hl, hc⟩ := hd
    have hc : isNum c = true := by simpa using hc
    obtain ⟨e1, e2⟩ := digitChar_digitVal c hc
    rw [digitsValue_append_single]
    cases l with
    | nil =>
      have : digitsValue [] = 0 := rfl
      rw [this, Nat.mul_zero, Nat.zero_add, formatUint_lt_ten _ e2, e1]
      rfl
    | cons a l =>
      have ha : isNum a = true := by
        simp only [List.all_cons, Bool.and_eq_true] at hl
        exact hl.1
      have hall : (a :: l ++ [c]).all isNum = true := by
        rw [List.all_append, hl]; simp [hc]
      have ha0 : a ≠ '0' := by
        intro h0
        have : zeroPadded (a :: l ++ [c]) = true := by
          unfold zeroPadded
          rw [hall, h0]
          simp
        rw [this] at hz
        cases hz
      have hzl : zeroPadded (a :: l) = false := by
        unfold zeroPadded
        simp [ha0]
      have hih := ih (by simp) hl hzl
      have hpos : 0 < digitsValue (a :: l) := by
        rcases Nat.eq_zero_or_pos (digitsValue (a :: l)) with h0 | h0
        · rw [h0] at hih
          have : formatUint 0 = ['0'] := by decide
          rw [this] at hih
          injection hih with h1 h2
          exact absurd h1.symm ha0
        · exact h0
      rw [formatUint_ge_ten _ (by omega)]
      have q : (10 * digitsValue (a :: l) + digitVal c) / 10 = digitsValue (a :: l) := by omega
      have r : (10 * digitsValue (a :: l) + digitVal c) % 10 = digitVal c := by omega
      rw [q, r, hih, e1]

theorem parseUint_of_digits (d : Str) (hne : d ≠ []) (hd : d.all isNum = true)
    (hb : digitsValue d < 2 ^ 64) : parseUint d = some (digitsValue d) := by
  unfold parseUint
  rw [if_neg hne, if_neg (by simp [hd]), if_neg (by omega)]

/-! ## Parsing a canonical version string -/

theorem mem_splitDots (x : Str) (c : Char) (hc : c ∈ x) (hdot : c ≠ '.') :
    ∃ seg ∈ splitDots x, c ∈ seg := by
  induction x with
  | nil => cases hc
  | cons a x ih =>
    by_cases ha : a = '.'
    · have hcx : c ∈ x := by
        rcases List.mem_cons.1 hc with h | h
        · exact absurd (h.trans ha) hdot
        · exact h
      obtain ⟨seg, hs, hm⟩ := ih hcx
      exact ⟨seg, by simp [splitDots, ha, hs], hm⟩
    · cases hsx : splitDots x with
      | nil => exact absurd hsx (splitDots_ne_nil x)
      | cons seg0 rest =>
        have e : splitDots (a :: x) = (a :: seg0) :: rest := by
          simp [splitDots, ha, hsx]
        rw [e]
        rcases List.mem_cons.1 hc with h | h
        · exact ⟨a :: seg0, by simp, by simp [h]⟩
        · obtain ⟨seg, hs, hm⟩ := ih h
          rw [hsx] at hs
          rcases List.mem_cons.1 hs with h2 | h2
          · exact ⟨a :: seg0, by simp, by simp [← h2, hm]⟩
          · exact ⟨seg, by simp [h2], hm⟩

theorem matchIdents_append (x X : Str)
    (hseg : ∀ seg ∈ splitDots x, seg ≠ [] ∧ seg.all isAllowed = true)
    (hX : X = [] ∨ ∃ w, X = '+' :: w) :
    matchIdents (x ++ X) = some (x, X) := by
  have hpos : ∀ c ∈ x, (isAllowed c || c == '.') = true := by
    intro c hc
    by_cases hdot : c = '.'
    · simp [hdot]
    · obtain ⟨seg, hs, hm⟩ := mem_splitDots x c hc hdot
      have := List.all_eq_true.1 (hseg seg hs).2 c hm
      simp [this]
  have ht : (x ++ X).takeWhile (fun c => isAllowed c || c == '.') = x := by
    rw [List.takeWhile_append_of_pos hpos]
    rcases hX with rfl | ⟨w, rfl⟩
    · simp
    · have hplus : ¬ ((isAllowed '+' || '+' == '.') = true) := by decide
      rw [List.takeWhile_cons_of_neg (p := fun a => isAllowed a || a == '.') hplus,
        List.append_nil]
  have hd : (x ++ X).dropWhile (fun c => isAllowed c || c == '.') = X := by
    rw [List.dropWhile_append_of_pos hpos]
    rcases hX with rfl | ⟨w, rfl⟩
    · simp
    · have hplus : ¬ ((isAllowed '+' || '+' == '.') = true) := by decide
      rw [List.dropWhile_cons_of_neg (p := fun a => isAllowed a || a == '.') hplus]
  have hall : (splitDots x).all (fun p => decide (p ≠ [])) = true := by
    rw [List.all_eq_true]
    intro seg hs
    simpa using (hseg seg hs).1
  unfold matchIdents
  rw [ht, hd, if_pos hall]

theorem matchMetadata_build (metadata : Str)
    (h : metadata = [] ∨ validBuild metadata = true) :
    matchMetadata (if metadata ≠ [] then '+' :: metadata else []) = some metadata := by
  by_cases hm : metadata = []
  · subst hm
    rfl
  · rw [if_pos hm]
    have hv : validBuild metadata = true := by
      rcases h with h | h
      · exact absurd h hm
      · exact h
    have hseg : ∀ seg ∈ splitDots metadata, seg ≠ [] ∧ seg.all isAllowed = true := by
      intro seg hs
      have := List.all_eq_true.1 hv seg hs
      simpa using this
    have := matchIdents_append metadata [] hseg (Or.inl rfl)
    rw [List.append_nil] at this
    simp only [matchMetadata, this]

/-- The remainder `-pre+metadata` of a canonical version string gives back its
two sections. -/
theorem versionTail_suffixString (pre metadata : Str)
    (hpre : pre = [] ∨ validPrerelease pre = true)
    (hmd : metadata = [] ∨ validBuild metadata = true) :
    versionTail (suffixString pre metadata) = some (pre, metadata) := by
  have hm := matchMetadata_build metadata hmd
  unfold suffixString
  by_cases hp : pre = []
  · subst hp
    simp only [ne_eq, not_true_eq_false, if_false, List.nil_append]
    by_cases hm0 : metadata = []
    · subst hm0
      rfl
    · rw [if_pos hm0] at hm ⊢
      unfold versionTail
      split
      · rename_i heq
        simp at heq
      · rw [hm]
  · rw [if_pos hp]
    have hv : validPrerelease pre = true := by
      rcases hpre with h | h
      · exact absurd h hp
      · exact h
    have hseg : ∀ seg ∈ splitDots pre, seg ≠ [] ∧ seg.all isAllowed = true := by
      intro seg hs
      have := List.all_eq_true.1 hv seg hs
      simp only [Bool.and_eq_true, decide_eq_true_eq] at this
      exact ⟨this.1, ((partOK_iff seg).1 this.2).1⟩
    have hX : (if metadata ≠ [] then '+' :: metadata else [])
        = [] ∨ ∃ w, (if metadata ≠ [] then '+' :: metadata else []) = '+' :: w := by
      by_cases hm0 : metadata = []
      · left; simp [hm0]
      · right; exact ⟨metadata, by simp [hm0]⟩
    have hi := matchIdents_append pre _ hseg hX
    show versionTail ('-' :: (pre ++ (if metadata ≠ [] then '+' :: metadata else [])))
      = some (pre, metadata)
    simp only [versionTail, hi, hm]

theorem suffixString_tail (pre metadata : Str) :
    suffixString pre metadata = [] ∨
      ∃ w, suffixString pre metadata = '-' :: w ∨ suffixString pre metadata = '+' :: w := by
  unfold suffixString
  by_cases hp : pre = []
  · by_cases hm : metadata = []
    · left; simp [hp, hm]
    · right; exact ⟨metadata, Or.inr (by simp [hp, hm])⟩
  · right
    exact ⟨pre ++ (if metadata ≠ [] then '+' :: metadata else []), Or.inl (by simp [hp])⟩

theorem validatePrerelease_of_valid (pre : Str) (h : validPrerelease pre = true) :
    validatePrerelease pre = .ok () := by
  unfold validatePrerelease
  rw [validatePrereleaseParts_ok_iff, List.all_eq_true]
  intro seg hs
  have := List.all_eq_true.1 h seg hs
  simp only [Bool.and_eq_true, decide_eq_true_eq] at this
  exact this.2

theorem validateMetadataParts_ok (ps : List Str)
    (h : ∀ p ∈ ps, p.all isAllowed = true) : validateMetadataParts ps = .ok () := by
  induction ps with
  | nil => rfl
  | cons p ps ih =>
    have e2 : containsOnly p allowed = p.all isAllowed := rfl
    rw [validateMetadataParts, e2, h p (by simp), if_neg (by simp)]
    exact ih (fun q hq => h q (by simp [hq]))

theorem validateMetadata_of_valid (metadata : Str) (h : validBuild metadata = true) :
    validateMetadata metadata = .ok () := by
  unfold validateMetadata
  apply validateMetadataParts_ok
  intro seg hs
  have := List.all_eq_true.1 h seg hs
  simp only [Bool.and_eq_true, decide_eq_true_eq] at this
  exact this.2

theorem versionOfMatch_ok (d1 d2 d3 pre metadata o : Str) (a b c : Nat)
    (h1 : parseUint d1 = some a) (h2 : parseUint d2 = some b) (h3 : parseUint d3 = some c)
    (hpre : pre = [] ∨ validPrerelease pre = true)
    (hmd : metadata = [] ∨ validBuild metadata = true) :
    versionOfMatch ⟨d1, '.' :: d2, '.' :: d3, pre, metadata⟩ o
      = .ok ⟨a, b, c, pre, metadata, o⟩ := by
  have hp : (if pre ≠ [] then validatePrerelease pre else .ok ()) = .ok () := by
    by_cases h : pre = []
    · simp [h]
    · rw [if_pos h]
      rcases hpre with h0 | h0
      · exact absurd h0 h
      · exact validatePrerelease_of_valid pre h0
  have hm : (if metadata ≠ [] then validateMetadata metadata else .ok ()) = .ok () := by
    by_cases h : metadata = []
    · simp [h]
    · rw [if_pos h]
      rcases hmd with h0 | h0
      · exact absurd h0 h
      · exact validateMetadata_of_valid metadata h0
  unfold versionOfMatch
  simp only [trimPrefixDot, h1, h2, h3, hp, hm, ne_eq, reduceCtorEq, not_false_eq_true,
    if_true]

theorem canonicalNumber_iff (d : Str) :
    canonicalNumber d = true ↔ d ≠ [] ∧ d.all isNum = true ∧ zeroPadded d = false := by
  unfold canonicalNumber
  by_cases h1 : d = [] <;> by_cases h2 : d.all isNum = true
    <;> cases h3 : zeroPadded d <;> simp [h1, h2]

/-- Claim C16, refuted as stated: `18446744073709551616.0.0` is a version string
in canonical form, and parsing it as `bumpSemver` does fails, its major number
being `2^64`. -/
theorem roundtrip_overflow :
    canonicalNumber "18446744073709551616".toList = true
    ∧ canonicalNumber "0".toList = true
    ∧ NewVersion (stripV ([] ++ "18446744073709551616".toList ++ '.' :: "0".toList
        ++ '.' :: "0".toList ++ suffixString [] [])) = .error .ErrSegmentParse := by
  decide

/-- Claim C16, amended: a version string in canonical form, with or without a
leading `v`, whose three numbers are below `2^64`, is parsed by `bumpSemver` to
the version with these three numbers, this pre-release and this build metadata,
and the text that `bumpSemver` prints for that version is the string again. -/
theorem roundtrip_canonical (p d1 d2 d3 pre metadata : Str)
    (hp : p = [] ∨ p = ['v'])
    (h1 : canonicalNumber d1 = true) (h2 : canonicalNumber d2 = true)
    (h3 : canonicalNumber d3 = true)
    (hpre : pre = [] ∨ validPrerelease pre = true)
    (hmd : metadata = [] ∨ validBuild metadata = true)
    (b1 : digitsValue d1 < 2 ^ 64) (b2 : digitsValue d2 < 2 ^ 64)
    (b3 : digitsValue d3 < 2 ^ 64) :
    ∃ v, NewVersion (stripV (p ++ d1 ++ '.' :: d2 ++ '.' :: d3 ++ suffixString pre metadata))
        = .ok v
      ∧ v.major = digitsValue d1 ∧ v.minor = digitsValue d2 ∧ v.patch = digitsValue d3
      ∧ v.pre = pre ∧ v.metadata = metadata
      ∧ vMark (p ++ d1 ++ '.' :: d2 ++ '.' :: d3 ++ suffixString pre metadata) ++ v.String
          = p ++ d1 ++ '.' :: d2 ++ '.' :: d3 ++ suffixString pre metadata := by
  obtain ⟨n1, a1, z1⟩ := (canonicalNumber_iff d1).1 h1
  obtain ⟨n2, a2, z2⟩ := (canonicalNumber_iff d2).1 h2
  obtain ⟨n3, a3, z3⟩ := (canonicalNumber_iff d3).1 h3
  have e : p ++ d1 ++ '.' :: d2 ++ '.' :: d3 ++ suffixString pre metadata
      = p ++ (d1 ++ '.' :: (d2 ++ '.' :: (d3 ++ suffixString pre metadata))) := by simp
  rw [e]
  obtain ⟨hs, hm, hq⟩ := stripV_prefixed p d1
    ('.' :: (d2 ++ '.' :: (d3 ++ suffixString pre metadata)))
    (by rcases hp with h | h <;> simp [h]) n1 a1
  have hN := NewVersion_eq
    (stripV (p ++ (d1 ++ '.' :: (d2 ++ '.' :: (d3 ++ suffixString pre metadata)))))
  rw [hs, versionRegex_three _ d1 d2 d3 _ hq n1 a1 n2 a2 n3 a3 (suffixString_tail pre metadata),
    versionTail_suffixString pre metadata hpre hmd, ← hs] at hN
  simp only at hN
  rw [versionOfMatch_ok d1 d2 d3 pre metadata _ _ _ _ (parseUint_of_digits d1 n1 a1 b1)
    (parseUint_of_digits d2 n2 a2 b2) (parseUint_of_digits d3 n3 a3 b3) hpre hmd] at hN
  refine ⟨_, hN, rfl, rfl, rfl, rfl, rfl, ?_⟩
  rw [hm, Version.String_eq]
  simp only [coreString, formatUint_digitsValue d1 n1 a1 z1,
    formatUint_digitsValue d2 n2 a2 z2, formatUint_digitsValue d3 n3 a3 z3]
  rcases hp with h | h <;> simp [h]

theorem roundtrip_canonical_witness :
    ∃ v, NewVersion (stripV (['v'] ++ "1".toList ++ '.' :: "20".toList ++ '.' :: "3".toList
          ++ suffixString "rc.1".toList "b-7.x".toList)) = .ok v
      ∧ v.major = digitsValue "1".toList ∧ v.minor = digitsValue "20".toList
      ∧ v.patch = digitsValue "3".toList
      ∧ v.pre = "rc.1".toList ∧ v.metadata = "b-7.x".toList
      ∧ vMark (['v'] ++ "1".toList ++ '.' :: "20".toList ++ '.' :: "3".toList
          ++ suffixString "rc.1".toList "b-7.x".toList) ++ v.String
          = ['v'] ++ "1".toList ++ '.' :: "20".toList ++ '.' :: "3".toList
          ++ suffixString "rc.1".toList "b-7.x".toList :=
  roundtrip_canonical ['v'] "1".toList "20".toList "3".toList "rc.1".toList "b-7.x".toList
    (by decide) (by decide) (by decide) (by decide) (by decide) (by decide) (by decide)
    (by decide) (by decide)

/-! ## Precedence of the result -/

theorem precedence_major (v w : Version) (h : v.major < w.major) :
    precedence v w = .lt := by
  unfold precedence
  rw [if_pos (by omega)]
  exact Nat.compare_eq_lt.2 h

theorem precedence_minor (v w : Version) (h1 : v.major = w.major) (h : v.minor < w.minor) :
    precedence v w = .lt := by
  unfold precedence
  rw [if_neg (by omega), if_pos (by omega)]
  exact Nat.compare_eq_lt.2 h

theorem precedence_patch (v w : Version) (h1 : v.major = w.major) (h2 : v.minor = w.minor)
    (h : v.patch < w.patch) : precedence v w = .lt := by
  unfold precedence
  rw [if_neg (by omega), if_neg (by omega), if_pos (by omega)]
  exact Nat.compare_eq_lt.2 h

theorem precedence_release (v w : Version) (h1 : v.major = w.major)
    (h2 : v.minor = w.minor) (h3 : v.patch = w.patch) (hv : v.pre ≠ []) (hw : w.pre = []) :
    precedence v w = .lt := by
  unfold precedence
  rw [if_neg (by omega), if_neg (by omega), if_neg (by omega),
    if_neg (fun h => hv h.1), if_neg hv, if_pos hw]

theorem precedence_prerelease (v w : Version) (h1 : v.major = w.major)
    (h2 : v.minor = w.minor) (h3 : v.patch = w.patch) (hv : v.pre ≠ []) (hw : w.pre ≠ [])
    (h : comparePrerelease (splitDots v.pre) (splitDots w.pre) = .lt) :
    precedence v w = .lt := by
  unfold precedence
  rw [if_neg (by omega), if_neg (by omega), if_neg (by omega),
    if_neg (fun h => hv h.1), if_neg hv, if_neg hw]
  exact h

theorem compareText_self (t : Str) : compareText t t = .eq := by
  induction t with
  | nil => rfl
  | cons a t ih =>
    unfold compareText
    rw [if_neg (lt_irrefl a), if_neg (lt_irrefl a)]
    exact ih

theorem compareIdent_self (t : Str) : compareIdent t t = .eq := by
  unfold compareIdent
  by_cases h : t.all isNum = true
  · rw [if_pos ⟨h, h⟩]
    exact Nat.compare_eq_eq.2 rfl
  · rw [if_neg (fun hh => h hh.1), if_neg h, if_neg h]
    exact compareText_self t

theorem compareIdent_formatUint (n m : Nat) (h : n < m) :
    compareIdent (formatUint n) (formatUint m) = .lt := by
  unfold compareIdent
  rw [if_pos ⟨formatUint_all n, formatUint_all m⟩, formatUint_value, formatUint_value]
  exact Nat.compare_eq_lt.2 h

/-- The pre-release `t.n` precedes `t.m` when `n < m`. -/
theorem comparePrerelease_number (t : Str) (n m : Nat) (ht : validIdent t = true)
    (h : n < m) :
    comparePrerelease (splitDots (t ++ '.' :: formatUint n))
      (splitDots (t ++ '.' :: formatUint m)) = .lt := by
  obtain ⟨_, hall, _⟩ := (validIdent_iff t).1 ht
  have hd := not_mem_dot_of_all_isAllowed t hall
  rw [splitDots_append_dot _ _ hd, splitDots_append_dot _ _ hd,
    splitDots_no_dot _ (not_mem_of_all_isNum _ (formatUint_all n)),
    splitDots_no_dot _ (not_mem_of_all_isNum _ (formatUint_all m))]
  simp only [comparePrerelease, compareIdent_self, compareIdent_formatUint n m h]

theorem hasPrefix_self_append (t rest : Str) : hasPrefix (t ++ rest) t = true := by
  unfold hasPrefix
  rw [List.isPrefixOf_iff_prefix]
  exact List.prefix_append t rest

/-- The level `prerelease` on a pre-release `t.n` made of the tag in effect and a
number: the label becomes `t.(n+1)`. -/
theorem incrementPrereleaseVersion_increment (v : Version) (tag : Str) (n : Nat)
    (hpre : v.pre = effectiveTag tag ++ '.' :: formatUint n)
    (ht : validIdent (effectiveTag tag) = true) (hn : n < 2 ^ 63 - 1) :
    incrementPrereleaseVersion v tag =
      match v.SetPrerelease (effectiveTag tag ++ '.' :: formatUint (n + 1)) with
      | .error e => .error (.setPrerelease e)
      | .ok r => .ok r := by
  obtain ⟨_, hall, _⟩ := (validIdent_iff _).1 ht
  have hd := not_mem_dot_of_all_isAllowed _ hall
  have hb : hasPrefix v.pre (effectiveTag tag) = true := by
    rw [hpre]; exact hasPrefix_self_append _ _
  rw [incrementPrereleaseVersion_number v tag _ _ hpre hd hb, atoi_formatUint n (by omega)]
  simp only [incInt_natCast n hn, formatInt_natCast]
  rw [if_neg (by omega)]

/-- Claim C17, refuted as stated: the level `prerelease` turns the release
`1.2.3` into `1.2.3-alpha.0`, and with the tag `alpha` it turns `1.2.3-rc.1`
into `1.2.3-alpha.0`; both results precede the version they come from. -/
theorem bumpSemver_prerelease_lowers :
    NewVersion (stripV "1.2.3".toList) = .ok ⟨1, 2, 3, [], [], "1.2.3".toList⟩
    ∧ bumpSemver "1.2.3".toList "prerelease".toList [] = .ok "1.2.3-alpha.0".toList
    ∧ NewVersion (stripV "1.2.3-alpha.0".toList)
        = .ok ⟨1, 2, 3, "alpha.0".toList, [], "1.2.3-alpha.0".toList⟩
    ∧ precedence ⟨1, 2, 3, [], [], "1.2.3".toList⟩
        ⟨1, 2, 3, "alpha.0".toList, [], "1.2.3-alpha.0".toList⟩ = .gt
    ∧ NewVersion (stripV "1.2.3-rc.1".toList)
        = .ok ⟨1, 2, 3, "rc.1".toList, [], "1.2.3-rc.1".toList⟩
    ∧ bumpSemver "1.2.3-rc.1".toList "prerelease".toList "alpha".toList
        = .ok "1.2.3-alpha.0".toList
    ∧ precedence ⟨1, 2, 3, "rc.1".toList, [], "1.2.3-rc.1".toList⟩
        ⟨1, 2, 3, "alpha.0".toList, [], "1.2.3-alpha.0".toList⟩ = .gt := by
  decide

/-- Claim C17, amended: on an accepted version string whose three numbers are
below `2^64 - 1`, a successful bump has strictly higher precedence than the
input for the levels `major`, `minor`, `patch`, `premajor` and `preminor`, for
`prepatch` on a version without pre-release, and for `prerelease` on a version
whose pre-release is the tag in effect, a dot and a number below `2^63 - 1`. -/
theorem bumpSemver_precedence (s lvl tag r : Str) (v : Version)
    (hs : NewVersion (stripV s) = .ok v)
    (hr : bumpSemver s lvl tag = .ok r)
    (hmajor : v.major < 2 ^ 64 - 1) (hminor : v.minor < 2 ^ 64 - 1)
    (hpatch : v.patch < 2 ^ 64 - 1)
    (hcase : lvl = "major".toList ∨ lvl = "minor".toList ∨ lvl = "patch".toList
      ∨ lvl = "premajor".toList ∨ lvl = "preminor".toList
      ∨ (lvl = "prepatch".toList ∧ v.pre = [])
      ∨ (lvl = "prerelease".toList ∧ validIdent (effectiveTag tag) = true
          ∧ ∃ n, n < 2 ^ 63 - 1 ∧ v.pre = effectiveTag tag ++ '.' :: formatUint n)) :
    ∃ nv, dispatch v lvl tag = .ok nv ∧ r = vMark s ++ nv.String
      ∧ precedence v nv = .lt := by
  obtain ⟨v2, nv, hv2, hd, hrr⟩ := bumpSemver_ok_inv s lvl tag r hr
  rw [hs] at hv2
  injection hv2 with hv2
  subst hv2
  refine ⟨nv, hd, hrr, ?_⟩
  have eM := lt_pow64_pred_mod _ hmajor
  have em := lt_pow64_pred_mod _ hminor
  have ep := lt_pow64_pred_mod _ hpatch
  rcases hcase with rfl | rfl | rfl | rfl | rfl | ⟨rfl, hp0⟩ | ⟨rfl, ht, n, hn, hpre⟩
  · rw [dispatch_major] at hd
    injection hd with hd
    subst hd
    exact precedence_major _ _ (by simp [Version.IncMajor, eM])
  · rw [dispatch_minor] at hd
    injection hd with hd
    subst hd
    exact precedence_minor _ _ (by simp [Version.IncMinor])
      (by simp [Version.IncMinor, em])
  · rw [dispatch_patch] at hd
    injection hd with hd
    subst hd
    by_cases hp0 : v.pre = []
    · exact precedence_patch _ _ (by simp [Version.IncPatch, hp0])
        (by simp [Version.IncPatch, hp0]) (by simp [Version.IncPatch, hp0, ep])
    · exact precedence_release _ _ (by simp [Version.IncPatch, hp0])
        (by simp [Version.IncPatch, hp0]) (by simp [Version.IncPatch, hp0]) hp0
        (by simp [Version.IncPatch, hp0])
  · rw [dispatch_premajor] at hd
    obtain ⟨h1, _⟩ := SetPrerelease_ok_inv _ _ _ (setPrerelease_wrap_ok _ _ _ hd)
    exact precedence_major _ _ (by rw [h1]; simp [Version.IncMajor, eM])
  · rw [dispatch_preminor] at hd
    obtain ⟨h1, h2, _⟩ := SetPrerelease_ok_inv _ _ _ (setPrerelease_wrap_ok _ _ _ hd)
    exact precedence_minor _ _ (by rw [h1]; simp [Version.IncMinor])
      (by rw [h2]; simp [Version.IncMinor, em])
  · rw [dispatch_prepatch] at hd
    obtain ⟨h1, h2, h3, _⟩ := SetPrerelease_ok_inv _ _ _ (setPrerelease_wrap_ok _ _ _ hd)
    exact precedence_patch _ _ (by rw [h1]; simp [Version.IncPatch, hp0])
      (by rw [h2]; simp [Version.IncPatch, hp0])
      (by rw [h3]; simp [Version.IncPatch, hp0, ep])
  · rw [dispatch_prerelease, incrementPrereleaseVersion_increment v tag n hpre ht hn] at hd
    obtain ⟨h1, h2, h3, h4, _⟩ := SetPrerelease_ok_inv _ _ _ (setPrerelease_wrap_ok _ _ _ hd)
    refine precedence_prerelease _ _ h1.symm h2.symm h3.symm (by rw [hpre]; simp)
      (by rw [h4]; simp) ?_
    rw [h4, hpre]
    exact comparePrerelease_number _ n (n + 1) ht (by omega)

theorem bumpSemver_precedence_witness :
    ∃ nv, dispatch ⟨1, 2, 3, "alpha.1".toList, [], "1.2.3-alpha.1".toList⟩
        "prerelease".toList "alpha".toList = .ok nv
      ∧ "1.2.3-alpha.2".toList = vMark "1.2.3-alpha.1".toList ++ nv.String
      ∧ precedence ⟨1, 2, 3, "alpha.1".toList, [], "1.2.3-alpha.1".toList⟩ nv = .lt :=
  bumpSemver_precedence "1.2.3-alpha.1".toList "prerelease".toList "alpha".toList
    "1.2.3-alpha.2".toList ⟨1, 2, 3, "alpha.1".toList, [], "1.2.3-alpha.1".toList⟩
    (by decide) (by decide) (by decide) (by decide) (by decide)
    (Or.inr (Or.inr (Or.inr (Or.inr (Or.inr (Or.inr
      ⟨rfl, by decide, 1, by decide, by decide⟩))))))

/-! ## What a parsed version is made of -/

theorem parseUint_lt (x : Str) (n : Nat) (h : parseUint x = some n) : n < 2 ^ 64 := by
  unfold parseUint at h
  split at h
  · cases h
  · split at h
    · cases h
    · split at h
      · cases h
      · injection h with h
        omega

theorem mem_of_mem_splitDots (x seg : Str) (c : Char) (hs : seg ∈ splitDots x)
    (hc : c ∈ seg) : c ∈ x ∧ c ≠ '.' := by
  induction x generalizing seg with
  | nil =>
    simp only [splitDots, List.mem_singleton] at hs
    rw [hs] at hc
    cases hc
  | cons a x ih =>
    by_cases ha : a = '.'
    · have e : splitDots (a :: x) = [] :: splitDots x := by simp [splitDots, ha]
      rw [e] at hs
      rcases List.mem_cons.1 hs with h | h
      · rw [h] at hc; cases hc
      · obtain ⟨h1, h2⟩ := ih seg h hc
        exact ⟨List.mem_cons_of_mem _ h1, h2⟩
    · cases hsx : splitDots x with
      | nil => exact absurd hsx (splitDots_ne_nil x)
      | cons seg0 rest =>
        have e : splitDots (a :: x) = (a :: seg0) :: rest := by
          simp [splitDots, ha, hsx]
        rw [e] at hs
        rcases List.mem_cons.1 hs with h | h
        · rw [h] at hc
          rcases List.mem_cons.1 hc with h2 | h2
          · exact ⟨by simp [h2], by rw [h2]; exact ha⟩
          · obtain ⟨h3, h4⟩ := ih seg0 (by rw [hsx]; simp) h2
            exact ⟨List.mem_cons_of_mem _ h3, h4⟩
        · obtain ⟨h3, h4⟩ := ih seg (by rw [hsx]; simp [h]) hc
          exact ⟨List.mem_cons_of_mem _ h3, h4⟩

theorem validBuild_of_matchIdents (t ids rest : Str) (h : matchIdents t = some (ids, rest)) :
    validBuild ids = true := by
  obtain ⟨_, hall, hseg⟩ := matchIdents_some t ids rest h
  unfold validBuild
  rw [List.all_eq_true] at hseg ⊢
  intro seg hs
  have hne : seg ≠ [] := by simpa using hseg seg hs
  have hal : seg.all isAllowed = true := by
    rw [List.all_eq_true]
    intro c hc
    obtain ⟨h1, h2⟩ := mem_of_mem_splitDots ids seg c hs hc
    have := hall c h1
    simpa [h2] using this
  simp [hne, hal]

theorem matchMetadata_valid (r m8 : Str) (h : matchMetadata r = some m8) :
    m8 = [] ∨ validBuild m8 = true := by
  unfold matchMetadata at h
  split at h
  · injection h with h
    exact Or.inl h.symm
  · rename_i t
    cases hi : matchIdents t with
    | none => rw [hi] at h; cases h
    | some x =>
      obtain ⟨ids, rest⟩ := x
      rw [hi] at h
      cases rest with
      | nil =>
        injection h with h
        subst h
        exact Or.inr (validBuild_of_matchIdents t ids [] hi)
      | cons c w => cases h
  · cases h

theorem versionTail_metadata (r3 m5 m8 : Str) (h : versionTail r3 = some (m5, m8)) :
    m8 = [] ∨ validBuild m8 = true := by
  unfold versionTail at h
  split at h
  · cases hi : matchIdents _ with
    | none => rw [hi] at h; cases h
    | some x =>
      obtain ⟨i5, r4⟩ := x
      rw [hi] at h
      simp only at h
      cases hm : matchMetadata r4 with
      | none => rw [hm] at h; cases h
      | some i8 =>
        rw [hm] at h
        injection h with h
        injection h with h1 h2
        subst h2
        exact matchMetadata_valid r4 i8 hm
  · cases hm : matchMetadata r3 with
    | none => rw [hm] at h; cases h
    | some i8 =>
      rw [hm] at h
      injection h with h
      injection h with h1 h2
      subst h2
      exact matchMetadata_valid r3 i8 hm

theorem versionOfMatch_fields (m : Submatch) (o : Str) (v : Version)
    (h : versionOfMatch m o = .ok v) :
    v.major < 2 ^ 64 ∧ v.minor < 2 ^ 64 ∧ v.patch < 2 ^ 64 ∧ v.metadata = m.m8 := by
  unfold versionOfMatch at h
  cases h1 : parseUint m.m1 with
  | none => rw [h1] at h; cases h
  | some major =>
    rw [h1] at h
    simp only at h
    cases h2 : (if m.m2 ≠ [] then parseUint (trimPrefixDot m.m2) else some 0) with
    | none => rw [h2] at h; cases h
    | some minor =>
      rw [h2] at h
      simp only at h
      cases h3 : (if m.m3 ≠ [] then parseUint (trimPrefixDot m.m3) else some 0) with
      | none => rw [h3] at h; cases h
      | some patch =>
        rw [h3] at h
        simp only at h
        cases h4 : (if m.m5 ≠ [] then validatePrerelease m.m5 else .ok ()) with
        | error e => rw [h4] at h; cases h
        | ok u =>
          rw [h4] at h
          simp only at h
          cases h5 : (if m.m8 ≠ [] then validateMetadata m.m8 else .ok ()) with
          | error e => rw [h5] at h; cases h
          | ok u2 =>
            rw [h5] at h
            injection h with h
            subst h
            have b2 : minor < 2 ^ 64 := by
              by_cases hm : m.m2 = []
              · simp [hm] at h2; omega
              · rw [if_pos hm] at h2; exact parseUint_lt _ _ h2
            have b3 : patch < 2 ^ 64 := by
              by_cases hm : m.m3 = []
              · simp [hm] at h3; omega
              · rw [if_pos hm] at h3; exact parseUint_lt _ _ h3
            exact ⟨parseUint_lt _ _ h1, b2, b3, rfl⟩

/-- A parsed version: its three numbers fit 64 bits and its build metadata is
empty or made of non-empty parts of the characters `0-9 A-Z a-z -`. -/
theorem NewVersion_fields (t : Str) (v : Version) (h : NewVersion t = .ok v) :
    v.major < 2 ^ 64 ∧ v.minor < 2 ^ 64 ∧ v.patch < 2 ^ 64
      ∧ (v.metadata = [] ∨ validBuild v.metadata = true) := by
  rw [NewVersion_eq] at h
  cases hm : versionRegex t with
  | none => rw [hm] at h; cases h
  | some m =>
    rw [hm] at h
    simp only at h
    obtain ⟨b1, b2, b3, e⟩ := versionOfMatch_fields m t v h
    obtain ⟨r3, _, htail, _⟩ := versionRegex_parts t m hm
    exact ⟨b1, b2, b3, by rw [e]; exact versionTail_metadata r3 _ _ htail⟩

/-! ## Parsing a printed version again -/

theorem vMark_cases (s : Str) : vMark s = [] ∨ vMark s = ['v'] := by
  unfold vMark
  split
  · exact Or.inr rfl
  · exact Or.inl rfl

theorem parseUint_formatUint (n : Nat) (h : n < 2 ^ 64) : parseUint (formatUint n) = some n := by
  have := parseUint_of_digits (formatUint n) (formatUint_ne_nil n) (formatUint_all n)
    (by rw [formatUint_value]; exact h)
  rw [formatUint_value] at this
  exact this

/-- The text that `bumpSemver` prints for a version whose numbers fit 64 bits and
whose pre-release and build metadata are valid is accepted again, as the same
version. -/
theorem NewVersion_printed (q pre metadata : Str) (a b c : Nat)
    (hq : q = [] ∨ q = ['v'])
    (ha : a < 2 ^ 64) (hb : b < 2 ^ 64) (hc : c < 2 ^ 64)
    (hpre : pre = [] ∨ validPrerelease pre = true)
    (hmd : metadata = [] ∨ validBuild metadata = true) :
    NewVersion (stripV (q ++ coreString a b c ++ suffixString pre metadata))
        = .ok ⟨a, b, c, pre, metadata,
            stripV (q ++ coreString a b c ++ suffixString pre metadata)⟩
      ∧ vMark (q ++ coreString a b c ++ suffixString pre metadata) = q := by
  have e : q ++ coreString a b c ++ suffixString pre metadata
      = q ++ (formatUint a ++ '.' :: (formatUint b ++ '.' :: (formatUint c
          ++ suffixString pre metadata))) := by
    simp [coreString]
  rw [e]
  obtain ⟨hs, hm, _⟩ := stripV_prefixed q (formatUint a)
    ('.' :: (formatUint b ++ '.' :: (formatUint c ++ suffixString pre metadata)))
    (by rcases hq with h | h <;> simp [h]) (formatUint_ne_nil a) (formatUint_all a)
  have hd : q.drop 1 = [] := by rcases hq with h | h <;> simp [h]
  have htk : q.take 1 = q := by rcases hq with h | h <;> simp [h]
  have hN := NewVersion_eq (stripV (q ++ (formatUint a ++ '.' :: (formatUint b
    ++ '.' :: (formatUint c ++ suffixString pre metadata)))))
  rw [hs, hd, versionRegex_three [] _ _ _ _ (Or.inl rfl) (formatUint_ne_nil a)
    (formatUint_all a) (formatUint_ne_nil b) (formatUint_all b) (formatUint_ne_nil c)
    (formatUint_all c) (suffixString_tail pre metadata),
    versionTail_suffixString pre metadata hpre hmd, ← hd, ← hs] at hN
  simp only at hN
  rw [versionOfMatch_ok _ _ _ pre metadata _ a b c (parseUint_formatUint a ha)
    (parseUint_formatUint b hb) (parseUint_formatUint c hc) hpre hmd] at hN
  exact ⟨hN, by rw [hm, htk]⟩

theorem validPrerelease_label (t : Str) (k : Nat) (ht : validIdent t = true) :
    validPrerelease (t ++ '.' :: formatUint k) = true := by
  obtain ⟨hne, hall, hz⟩ := (validIdent_iff t).1 ht
  have hd := not_mem_dot_of_all_isAllowed t hall
  have h1 : partOK t = true := (partOK_iff t).2 ⟨hall, hz⟩
  have h2 : partOK (formatUint k) = true := by
    rw [partOK_iff]
    refine ⟨all_isAllowed_of_all_isNum _ (formatUint_all k), ?_⟩
    rintro ⟨_, hl, hh⟩
    have := zeroPadded_formatUint k
    unfold zeroPadded at this
    simp [formatUint_all k, hl, hh] at this
  unfold validPrerelease
  rw [splitDots_append_dot _ _ hd,
    splitDots_no_dot _ (not_mem_of_all_isNum _ (formatUint_all k))]
  simp [hne, h1, h2, formatUint_ne_nil k]

theorem incrementPrereleaseVersion_ok_label (v nv : Version) (tag : Str)
    (h : incrementPrereleaseVersion v tag = .ok nv) :
    ∃ j : Int, v.SetPrerelease (effectiveTag tag ++ '.' :: formatInt j) = .ok nv := by
  have hz : ".0".toList = '.' :: formatInt 0 := by decide
  by_cases hb : hasPrefix v.pre (effectiveTag tag) = true
  · by_cases hd : '.' ∈ v.pre
    · obtain ⟨a, b, hab, ha⟩ := split_first_dot v.pre hd
      rw [incrementPrereleaseVersion_number v tag a b hab ha hb] at h
      cases hat : atoi b with
      | none => rw [hat] at h; cases h
      | some k =>
        rw [hat] at h
        by_cases hk : k < 0
        · simp only [if_pos hk] at h; cases h
        · simp only [if_neg hk] at h
          exact ⟨_, setPrerelease_wrap_ok _ _ _ h⟩
    · rw [incrementPrereleaseVersion_fresh v tag (Or.inr hd), hz] at h
      exact ⟨0, setPrerelease_wrap_ok _ _ _ h⟩
  · rw [incrementPrereleaseVersion_fresh v tag (Or.inl (by simpa using hb)), hz] at h
    exact ⟨0, setPrerelease_wrap_ok _ _ _ h⟩

/-! ## Repeating the level `prerelease` -/

/-- Claim C18, refuted as stated: with the tag `rc.x` the first bump of `1.2.3`
gives `1.2.3-rc.x.0` and the second one fails; and from `alpha.9223372036854775806`
the first bump gives `alpha.9223372036854775807` and the second one gives
`alpha.-9223372036854775808`, which is not one greater. -/
theorem bumpSemver_prerelease_not_repeatable :
    bumpSemver "1.2.3".toList "prerelease".toList "rc.x".toList
        = .ok "1.2.3-rc.x.0".toList
    ∧ bumpSemver "1.2.3-rc.x.0".toList "prerelease".toList "rc.x".toList
        = .error .invalidPrereleaseFormat
    ∧ bumpSemver "1.2.3-alpha.9223372036854775806".toList "prerelease".toList []
        = .ok "1.2.3-alpha.9223372036854775807".toList
    ∧ bumpSemver "1.2.3-alpha.9223372036854775807".toList "prerelease".toList []
        = .ok "1.2.3-alpha.-9223372036854775808".toList := by
  decide

/-- Claim C18, amended: on an accepted version string, with a tag that is empty
or a valid identifier and `t` the tag in effect, a successful bump of level
`prerelease` returns a version whose pre-release is `t.j` for an integer `j`,
and when `0 ≤ j < 2^63 - 1` the same bump on that result succeeds and returns
the same version with the pre-release `t.(j+1)`. -/
theorem bumpSemver_prerelease_repeat (s tag r : Str) (v : Version)
    (hs : NewVersion (stripV s) = .ok v)
    (ht : tag = [] ∨ validIdent tag = true)
    (hr : bumpSemver s "prerelease".toList tag = .ok r) :
    ∃ j : Int,
      r = vMark s ++ coreString v.major v.minor v.patch
          ++ suffixString (effectiveTag tag ++ '.' :: formatInt j) v.metadata
      ∧ (0 ≤ j → j < 2 ^ 63 - 1 →
          bumpSemver r "prerelease".toList tag
            = .ok (vMark s ++ coreString v.major v.minor v.patch
                ++ suffixString (effectiveTag tag ++ '.' :: formatInt (j + 1)) v.metadata)) := by
  have ht2 := validIdent_effectiveTag tag ht
  obtain ⟨v2, nv, hv2, hd, hrr⟩ := bumpSemver_ok_inv s _ tag r hr
  rw [hs] at hv2
  injection hv2 with hv2
  subst hv2
  rw [dispatch_prerelease] at hd
  obtain ⟨j, hj⟩ := incrementPrereleaseVersion_ok_label v nv tag hd
  obtain ⟨f1, f2, f3, f4, f5, _⟩ := SetPrerelease_ok_inv v nv _ hj
  have hr2 : r = vMark s ++ coreString v.major v.minor v.patch
      ++ suffixString (effectiveTag tag ++ '.' :: formatInt j) v.metadata := by
    rw [hrr, Version.String_eq, f1, f2, f3, f4, f5, List.append_assoc]
  refine ⟨j, hr2, ?_⟩
  intro h0 hlt
  obtain ⟨k, rfl⟩ := Int.eq_ofNat_of_zero_le h0
  have hk : k < 2 ^ 63 - 1 := by omega
  have hj1 : ((k : Int) + 1) = ((k + 1 : Nat) : Int) := by push_cast; rfl
  rw [hj1, formatInt_natCast]
  rw [formatInt_natCast] at hr2
  obtain ⟨b1, b2, b3, hmd⟩ := NewVersion_fields _ v hs
  obtain ⟨hN, hM⟩ := NewVersion_printed (vMark s)
    (effectiveTag tag ++ '.' :: formatUint k) v.metadata v.major v.minor v.patch
    (vMark_cases s) b1 b2 b3 (Or.inr (validPrerelease_label _ k ht2)) hmd
  rw [← hr2] at hN hM
  obtain ⟨w, hw, g1, g2, g3, g4, g5⟩ := SetPrerelease_of_valid
    (⟨v.major, v.minor, v.patch, effectiveTag tag ++ '.' :: formatUint k, v.metadata,
      stripV r⟩ : Version) _ (validatePrerelease_tag_number (effectiveTag tag) (k + 1) ht2)
  rw [bumpSemver_of_parse_ok r _ tag _ hN, dispatch_prerelease,
    incrementPrereleaseVersion_increment _ tag k rfl ht2 hk, hw, hM]
  simp only [Version.String_eq, g1, g2, g3, g4, g5, List.append_assoc]

theorem bumpSemver_prerelease_repeat_witness :
    ∃ j : Int,
      "v1.2.3-rc.0+b7".toList = vMark "v1.2.3-beta.4+b7".toList ++ coreString 1 2 3
          ++ suffixString (effectiveTag "rc".toList ++ '.' :: formatInt j) "b7".toList
      ∧ (0 ≤ j → j < 2 ^ 63 - 1 →
          bumpSemver "v1.2.3-rc.0+b7".toList "prerelease".toList "rc".toList
            = .ok (vMark "v1.2.3-beta.4+b7".toList ++ coreString 1 2 3
                ++ suffixString (effectiveTag "rc".toList ++ '.' :: formatInt (j + 1))
                    "b7".toList)) :=
  bumpSemver_prerelease_repeat "v1.2.3-beta.4+b7".toList "rc".toList "v1.2.3-rc.0+b7".toList
    ⟨1, 2, 3, "beta.4".toList, "b7".toList, "1.2.3-beta.4+b7".toList⟩
    (by decide) (by decide) (by decide)

end SemverBump
